import Mathlib

/-!
# Verification of the SA-code-vizualizer analysis core

This development gives a shallow embedding of the dependency-analysis core of
the `SA-code-vizualizer` VS Code extension (file collector, path resolver,
graph builder, cycle detector from `src/codeScanner.ts` and
`src/dependencyGraph.ts`) and proves properties of the embedded code.

JavaScript strings are modelled as Lean `String`s (lists of characters);
filesystem contents are modelled explicitly (`FsEntry` trees for the scanner,
an abstract existence predicate for the resolver); the per-language regex
extraction step is a parameter (`extract`) of the graph builder, mirroring the
call `this.extractDependencies(file, workspacePath)` whose output is a list of
`DependencyInfo` values.
-/

namespace CodeViz

/-! ## String helpers (models of the JavaScript / Node string and path
operations used by the source) -/

/-- Model of JavaScript `s.split(sep)` for a single-character separator,
working on the character list of the string.  `"".split(c) = [""]`,
`"a/b".split('/') = ["a","b"]`, `"/a".split('/') = ["", "a"]`. -/
def splitChar (c : Char) : List Char → List String
  | [] => [""]
  | a :: as =>
    if a = c then "" :: splitChar c as
    else
      match splitChar c as with
      | [] => [String.mk [a]]
      | s :: rest => String.mk (a :: s.data) :: rest

/-- JavaScript `s.split(c)` on a string. -/
def jsSplit (c : Char) (s : String) : List String :=
  splitChar c s.data

/-- Join a list of strings with a separator; model of `Array.prototype.join`
and of building a path from segments with `path.join`/`path.sep`. -/
def joinSep (s : String) : List String → String
  | [] => ""
  | [a] => a
  | a :: rest => a ++ s ++ joinSep s rest

/-- Model of Node `path.basename` (POSIX): the part after the last `/`. -/
def jsBasename (s : String) : String :=
  (jsSplit '/' s).getLastD s

/-- Model of Node `path.extname` applied to a plain file name: the suffix
from the last dot, empty when there is no dot or when the only dot starts the
name (`".git"` has no extension). -/
def extnameOf (name : String) : String :=
  let parts := jsSplit '.' name
  if parts.length ≤ 1 then ""
  else if joinSep "." parts.dropLast = "" then ""
  else "." ++ parts.getLastD ""

/-- Model of JavaScript `s.startsWith(p)`. -/
def jsStartsWith (s p : String) : Bool :=
  p.data.isPrefixOf s.data

/-- Model of JavaScript `s.split(sep).length` line counting via
`content.split('\n').length`. -/
def jsLineCount (s : String) : Nat :=
  (jsSplit '\n' s).length

/-- Lexicographic comparison of character lists by character code, the order
JavaScript `Array.prototype.sort` uses on strings. -/
def charListLe : List Char → List Char → Bool
  | [], _ => true
  | _ :: _, [] => false
  | a :: as, b :: bs =>
    if a.toNat < b.toNat then true
    else if b.toNat < a.toNat then false
    else charListLe as bs

/-- Lexicographic string comparison (JavaScript `a <= b` on strings). -/
def strLe (a b : String) : Bool :=
  charListLe a.data b.data

/-- Insertion of one string into a sorted list, by the character-wise
lexicographic order used by JavaScript `Array.prototype.sort` on strings. -/
def sortInsert (a : String) : List String → List String
  | [] => [a]
  | b :: bs => if strLe a b then a :: b :: bs else b :: sortInsert a bs

/-- Model of JavaScript `Array.prototype.sort()` on an array of strings:
lexicographic order by character values. -/
def jsSort : List String → List String
  | [] => []
  | a :: as => sortInsert a (jsSort as)

/-- Model of `Array.from(new Set(xs))`: deduplicate keeping the first
occurrence of each element, in order. -/
def jsDedup (l : List String) : List String :=
  (l.foldl (fun acc x => if acc.contains x then acc else acc ++ [x]) [])

/-! ## Data model (`codeScanner.ts` and `dependencyGraph.ts` interfaces) -/

/-- `CodeFile` from `codeScanner.ts`: one collected source file. -/
structure CodeFile where
  path : String
  relativePath : String
  content : String
  language : String
  deriving Repr, DecidableEq

/-- `DependencyType` from `dependencyGraph.ts`; the TypeScript union
`'import' | 'require' | 'dynamic-import' | 'include' | 'using' | 'from' |
'export'` (several of those words are Lean keywords, hence the `Kind`
suffixes). -/
inductive DependencyType where
  | importKind | requireKind | dynamicImportKind | includeKind
  | usingKind | fromKind | exportKind
  deriving Repr, DecidableEq

/-- Display string of a dependency type, as it appears in edge titles. -/
def DependencyType.str : DependencyType → String
  | .importKind => "import"
  | .requireKind => "require"
  | .dynamicImportKind => "dynamic-import"
  | .includeKind => "include"
  | .usingKind => "using"
  | .fromKind => "from"
  | .exportKind => "export"

/-- `DependencyInfo` from `dependencyGraph.ts`: one resolved raw reference
(`path` is the project-relative path the resolver returned). -/
structure DependencyInfo where
  path : String
  type : DependencyType
  lineNumber : Option Nat := none
  deriving Repr, DecidableEq

/-- `GraphNode` from `dependencyGraph.ts`.  The optional fields of the
TypeScript interface are modelled with their observable defaults
(`isCircular` absent behaves as `false`, counters start at `0`). -/
structure GraphNode where
  id : String
  label : String
  path : String
  language : String
  size : Nat
  lineCount : Nat
  group : Nat
  dependencyCount : Nat
  dependentCount : Nat
  isCircular : Bool
  deriving Repr, DecidableEq

/-- `GraphEdge` from `dependencyGraph.ts`.  The TypeScript fields `from` and
`to` are Lean keywords / too short, so they are named `efrom` and `eto`. -/
structure GraphEdge where
  efrom : String
  eto : String
  value : Nat
  title : String
  type : DependencyType
  count : Nat
  isCircular : Bool
  deriving Repr, DecidableEq

/-- The statistics record of `GraphData`. -/
structure GraphStatistics where
  totalNodes : Nat
  totalEdges : Nat
  languages : List String
  circularCount : Nat
  maxDependencies : Nat
  maxDependents : Nat
  deriving Repr, DecidableEq

/-- `GraphData` from `dependencyGraph.ts`. -/
structure GraphData where
  nodes : List GraphNode
  edges : List GraphEdge
  circularDependencies : List (List String)
  statistics : GraphStatistics
  deriving Repr, DecidableEq

/-! ## Graph builder (`DependencyGraph.buildGraph` and helpers) -/

/-- `DependencyGraph.getNodeId`: the relative path with backslashes replaced
by forward slashes (`relativePath.replace(/\\/g, '/')`). -/
def getNodeId (relativePath : String) : String :=
  String.mk (relativePath.data.map fun c => if c = '\\' then '/' else c)

/-- `DependencyGraph.getLanguageGroup`: the fixed language → group table,
defaulting to `0`. -/
def getLanguageGroup (language : String) : Nat :=
  match language with
  | "typescript" => 1 | "javascript" => 1 | "python" => 2 | "java" => 3
  | "csharp" => 4 | "cpp" => 5 | "c" => 5 | "go" => 6 | "rust" => 7
  | "ruby" => 8 | "php" => 9 | "swift" => 10 | "kotlin" => 11
  | "scala" => 12 | "dart" => 13 | "vue" => 14 | "svelte" => 15
  | _ => 0

/-- Node creation from `buildGraph` (the `files.forEach` creating nodes with
zeroed counters; `isCircular` is initially absent, i.e. `false`). -/
def mkNode (file : CodeFile) : GraphNode :=
  { id := getNodeId file.relativePath
    label := jsBasename file.relativePath
    path := file.relativePath
    language := file.language
    size := file.content.length
    lineCount := jsLineCount file.content
    group := getLanguageGroup file.language
    dependencyCount := 0
    dependentCount := 0
    isCircular := false }

/-- The node list built by `buildGraph` before edges are processed. -/
def buildNodes (files : List CodeFile) : List GraphNode :=
  files.map mkNode

/-- `DependencyGraph.findMatchingNode`: exact relative-path match first, then
fallback to base-filename match, else `null`. -/
def findMatchingNode (depPath : String) (nodes : List GraphNode) : Option String :=
  match nodes.find? (fun n => n.path == depPath) with
  | some n => some n.id
  | none =>
    match nodes.find? (fun n => jsBasename n.path == jsBasename depPath) with
    | some n => some n.id
    | none => none

/-- The `edgeMap` key from `buildGraph`:
`` const edgeKey = `${sourceId}->${targetId}` ``. -/
def edgeKey (sourceId targetId : String) : String :=
  sourceId ++ "->" ++ targetId

/-- Update the first element satisfying the predicate, leaving the rest
unchanged (the effect of a lookup returning a reference to a stored object,
followed by a mutation of that object). -/
def setFirst (p : α → Bool) (f : α → α) : List α → List α
  | [] => []
  | x :: xs => if p x then f x :: xs else x :: setFirst p f xs

/-- The mutation applied to an existing edge:
`existingEdge.count = (existingEdge.count || 1) + 1;
existingEdge.value = Math.min(existingEdge.count || 1, 5)`
(`count` is always at least `1`, so `count || 1` reads `count`). -/
def bumpEdge (e : GraphEdge) : GraphEdge :=
  { e with count := e.count + 1, value := min (e.count + 1) 5 }

/-- Increment the edge stored under a matching `edgeMap` key (`edgeMap` and
the `edges` array share the same edge objects, and a key is stored at most
once, so mutating the map's object updates the first — only — matching
element of the array). -/
def incEdge (k : String) (edges : List GraphEdge) : List GraphEdge :=
  setFirst (fun e => edgeKey e.efrom e.eto == k) bumpEdge edges

/-- The fresh edge created by `buildGraph` for the first occurrence of a
dependency pair. -/
def newEdge (file : CodeFile) (sourceId targetId : String)
    (depInfo : DependencyInfo) : GraphEdge :=
  { efrom := sourceId
    eto := targetId
    value := 1
    count := 1
    type := depInfo.type
    title := jsBasename file.relativePath ++ " → " ++ jsBasename depInfo.path
      ++ " (" ++ depInfo.type.str ++ ")"
    isCircular := false }

/-- One iteration of the inner dependency loop of `buildGraph`: look up the
target node; drop unresolved targets and self-references; otherwise increment
the existing edge for the `edgeMap` key or append a new edge. -/
def processDep (nodes : List GraphNode) (file : CodeFile) (sourceId : String)
    (edges : List GraphEdge) (depInfo : DependencyInfo) : List GraphEdge :=
  match findMatchingNode depInfo.path nodes with
  | none => edges
  | some targetId =>
    if targetId ≠ sourceId then
      let k := edgeKey sourceId targetId
      if edges.any (fun e => edgeKey e.efrom e.eto == k) then incEdge k edges
      else edges ++ [newEdge file sourceId targetId depInfo]
    else edges

/-- The edge-building double loop of `buildGraph`.  `extract` stands for
`this.extractDependencies(file, workspacePath)` (regular-expression
extraction plus per-language path resolution), which is a parameter here: the
properties proved below hold for every extraction result. -/
def buildEdges (extract : CodeFile → List DependencyInfo)
    (nodes : List GraphNode) (files : List CodeFile) : List GraphEdge :=
  files.foldl
    (fun edges file =>
      (extract file).foldl
        (processDep nodes file (getNodeId file.relativePath)) edges)
    []

/-- The count-updating loop of `buildGraph`
(`edges.forEach(...)` incrementing `dependencyCount` of the source node and
`dependentCount` of the target node). -/
def updateCounts (nodes : List GraphNode) (edges : List GraphEdge) :
    List GraphNode :=
  edges.foldl
    (fun ns e =>
      setFirst (fun n => n.id == e.eto)
        (fun n => { n with dependentCount := n.dependentCount + 1 })
        (setFirst (fun n => n.id == e.efrom)
          (fun n => { n with dependencyCount := n.dependencyCount + 1 }) ns))
    nodes

/-! ### Cycle detector (`DependencyGraph.detectCircularDependencies`) -/

/-- The adjacency list built from the edges (`adjList`); `Map.get` returns
the targets in edge order. -/
def neighbors (edges : List GraphEdge) (v : String) : List String :=
  (edges.filter (fun e => e.efrom == v)).map (fun e => e.eto)

/-- The mutable state of the DFS: `visited`, `recStack` and the accumulated
`circular` array. -/
structure DfsState where
  visited : List String
  recStack : List String
  circular : List (List String)
  deriving Repr, DecidableEq

/-- The dedup key `cycle.sort().join('->')`.  Note that in the source
`Array.prototype.sort` sorts the `cycle` array *in place*, so the array later
pushed onto `circular` is the sorted one. -/
def cycleSortKey (cycle : List String) : String :=
  joinSep "->" (jsSort cycle)

/-- The recursive `dfs` of `detectCircularDependencies`.  `fuel` bounds the
recursion depth; every call chain adds a fresh node to `visited`, so
`nodes.length + 1` fuel is always sufficient. -/
def dfs (adj : String → List String) : Nat → String → List String →
    DfsState → DfsState
  | 0, _, _, st => st
  | fuel + 1, nodeId, path, st =>
    if st.recStack.contains nodeId then
      match path.findIdx? (fun x => x == nodeId) with
      | none => st
      | some cycleStart =>
        let cycle := jsSort (path.drop cycleStart ++ [nodeId])
        if st.circular.any (fun c => cycleSortKey c == joinSep "->" cycle) then
          st
        else { st with circular := st.circular ++ [cycle] }
    else if st.visited.contains nodeId then st
    else
      let st1 : DfsState :=
        { st with visited := st.visited ++ [nodeId],
                  recStack := st.recStack ++ [nodeId] }
      let st2 := (adj nodeId).foldl
        (fun s neighbor => dfs adj fuel neighbor (path ++ [nodeId]) s) st1
      { st2 with recStack := st2.recStack.erase nodeId }

/-- `DependencyGraph.detectCircularDependencies`: DFS from every unvisited
node, returning the accumulated cycle list. -/
def detectCircularDependencies (nodes : List GraphNode)
    (edges : List GraphEdge) : List (List String) :=
  (nodes.foldl
    (fun (st : DfsState) (node : GraphNode) =>
      if st.visited.contains node.id then st
      else dfs (neighbors edges) (nodes.length + 1) node.id [] st)
    ⟨[], [], []⟩).circular

/-- Mark as circular the first node carrying each identifier mentioned in a
recorded cycle (`circularDependencies.forEach(circle => circle.forEach(...))`,
where `nodes.find` returns the first node with that id). -/
def markCircularNodes (circles : List (List String))
    (nodes : List GraphNode) : List GraphNode :=
  circles.foldl
    (fun ns circle =>
      circle.foldl
        (fun ns nodeId =>
          setFirst (fun n => n.id == nodeId)
            (fun n => { n with isCircular := true }) ns)
        ns)
    nodes

/-- Mark as circular each edge joining consecutive entries of a recorded
cycle (wrapping around), as the `for (let i = 0; ...)` loop of `buildGraph`
does; pairing a cycle with its rotation by one yields exactly the pairs
`(circle[i], circle[(i+1) % circle.length])`. -/
def markCircularEdges (circles : List (List String))
    (edges : List GraphEdge) : List GraphEdge :=
  circles.foldl
    (fun es circle =>
      (circle.zip (circle.rotateLeft 1)).foldl
        (fun es p =>
          setFirst (fun e => e.efrom == p.1 && e.eto == p.2)
            (fun e => { e with isCircular := true }) es)
        es)
    edges

/-- The statistics record computed at the end of `buildGraph`
(`Math.max(...xs, 0)` is the maximum of the list and `0`). -/
def mkStatistics (nodes : List GraphNode) (edges : List GraphEdge)
    (circles : List (List String)) : GraphStatistics :=
  { totalNodes := nodes.length
    totalEdges := edges.length
    languages := jsDedup (nodes.map (·.language))
    circularCount := circles.length
    maxDependencies := (nodes.map (·.dependencyCount)).foldl max 0
    maxDependents := (nodes.map (·.dependentCount)).foldl max 0 }

/-- `DependencyGraph.buildGraph`, with the extraction step as a parameter
(see `buildEdges`): create nodes, build aggregated edges, update the per-node
counters, detect cycles, mark circular nodes and edges, and assemble the
result. -/
def buildGraphCore (extract : CodeFile → List DependencyInfo)
    (files : List CodeFile) : GraphData :=
  let nodes0 := buildNodes files
  let edges0 := buildEdges extract nodes0 files
  let nodes1 := updateCounts nodes0 edges0
  let circles := detectCircularDependencies nodes1 edges0
  let nodes2 := markCircularNodes circles nodes1
  let edges1 := markCircularEdges circles edges0
  { nodes := nodes2
    edges := edges1
    circularDependencies := circles
    statistics := mkStatistics nodes2 edges1 circles }

/-! ## File collector (`CodeScanner` from `codeScanner.ts`)

The filesystem is modelled as a tree of entries.  A file whose `content` is
`none` is one whose `fs.promises.readFile` call fails; a directory with
`readable := false` is one whose `fs.promises.readdir` call throws. -/

inductive FsEntry where
  | file (name : String) (content : Option String)
  | dir (name : String) (readable : Bool) (entries : List FsEntry)

/-- `CodeScanner.supportedExtensions`. -/
def supportedExtensions : List String :=
  [".ts", ".tsx", ".js", ".jsx", ".py", ".java", ".cs", ".cpp", ".c", ".h",
   ".hpp", ".go", ".rs", ".rb", ".php", ".swift", ".kt", ".scala", ".dart",
   ".vue", ".svelte"]

/-- `CodeScanner.ignorePatterns`. -/
def ignorePatterns : List String :=
  ["node_modules", ".git", "dist", "build", ".vscode", "out", "bin", "obj",
   "__pycache__", ".next", ".cache"]

/-- `CodeScanner.shouldIgnore`: the source splits the relative path on the
path separator and tests whether any segment equals an ignore pattern; here
the relative path is handed over directly as its list of segments. -/
def shouldIgnore (parts : List String) : Bool :=
  ignorePatterns.any (fun pattern => parts.contains pattern)

/-- The extension → language table of `CodeScanner.getLanguageFromExtension`. -/
def languageMap : List (String × String) :=
  [(".ts", "typescript"), (".tsx", "typescript"), (".js", "javascript"),
   (".jsx", "javascript"), (".py", "python"), (".java", "java"),
   (".cs", "csharp"), (".cpp", "cpp"), (".c", "c"), (".h", "c"),
   (".hpp", "cpp"), (".go", "go"), (".rs", "rust"), (".rb", "ruby"),
   (".php", "php"), (".swift", "swift"), (".kt", "kotlin"),
   (".scala", "scala"), (".dart", "dart"), (".vue", "vue"),
   (".svelte", "svelte")]

/-- `CodeScanner.getLanguageFromExtension` (`languageMap[ext] || 'unknown'`). -/
def getLanguageFromExtension (ext : String) : String :=
  ((languageMap.find? (fun p => p.1 == ext)).map (·.2)).getD "unknown"

/-- The `CodeFile` record pushed by `scanDirectory` for an admitted file at
segment path `pre ++ [name]` under `root`. -/
def mkCodeFile (root : String) (pre : List String) (name : String)
    (c : String) : CodeFile :=
  { path := root ++ "/" ++ joinSep "/" (pre ++ [name])
    relativePath := joinSep "/" (pre ++ [name])
    content := c
    language := getLanguageFromExtension (extnameOf name) }

/-- `CodeScanner.scanDirectory`: walk the entries of a directory in order,
skipping entries whose relative path contains an ignored segment, recursing
into directories (a failing `readdir` aborts the whole scan), and collecting
files with a supported extension whose content can be read (a failing read
skips just that file). -/
def scanList (root : String) (pre : List String) :
    List FsEntry → Except Unit (List CodeFile)
  | [] => .ok []
  | .file name content :: rest =>
    if shouldIgnore (pre ++ [name]) then scanList root pre rest
    else if supportedExtensions.contains (extnameOf name) then
      match content with
      | some c => do
        let others ← scanList root pre rest
        pure (mkCodeFile root pre name c :: others)
      | none => scanList root pre rest
    else scanList root pre rest
  | .dir name readable entries :: rest =>
    if shouldIgnore (pre ++ [name]) then scanList root pre rest
    else if readable then do
      let sub ← scanList root (pre ++ [name]) entries
      let others ← scanList root pre rest
      pure (sub ++ others)
    else .error ()
  termination_by l => sizeOf l
  decreasing_by all_goals first | (simp; omega) | simp | omega

/-- `CodeScanner.scanWorkspace`: scan from the workspace root. -/
def scanWorkspace (root : String) (tree : List FsEntry) :
    Except Unit (List CodeFile) :=
  scanList root [] tree

/-- Whether the traversal reaches an unreadable directory: some directory
entry whose relative path contains no ignored segment has `readable = false`
(directories inside ignored directories are never read). -/
def hasBadDir (pre : List String) : List FsEntry → Bool
  | [] => false
  | .file _ _ :: rest => hasBadDir pre rest
  | .dir name readable entries :: rest =>
    if shouldIgnore (pre ++ [name]) then hasBadDir pre rest
    else !readable || hasBadDir (pre ++ [name]) entries || hasBadDir pre rest
  termination_by l => sizeOf l
  decreasing_by all_goals first | (simp; omega) | simp | omega

/-- Every file of the tree, as (segment path, content) pairs, in traversal
order, regardless of filters and readability. -/
def allFiles (pre : List String) : List FsEntry → List (List String × Option String)
  | [] => []
  | .file name content :: rest => (pre ++ [name], content) :: allFiles pre rest
  | .dir name _ entries :: rest => allFiles (pre ++ [name]) entries ++ allFiles pre rest
  termination_by l => sizeOf l
  decreasing_by all_goals first | (simp; omega) | simp | omega

/-- Modelled from the spec (§4.1 File Collector): a file is admitted exactly
when its extension is in the supported set and no segment of its relative
path equals an ignored directory name. -/
def eligibleSegs (segs : List String) : Bool :=
  supportedExtensions.contains (extnameOf (segs.getLastD ""))
    && !shouldIgnore segs

/-- Modelled from the spec (§4.1, §7): the admitted files of a tree with
their segment paths — every file of the tree that is eligible and whose
content is readable, in traversal order. -/
def collectAnn (pre : List String) (es : List FsEntry) :
    List (List String × String) :=
  (allFiles pre es).filterMap
    (fun x => if eligibleSegs x.1 then x.2.map (fun c => (x.1, c)) else none)

/-- The `CodeFile` record corresponding to an annotated admitted file. -/
def toFile (root : String) (x : List String × String) : CodeFile :=
  { path := root ++ "/" ++ joinSep "/" x.1
    relativePath := joinSep "/" x.1
    content := x.2
    language := getLanguageFromExtension (extnameOf (x.1.getLastD "")) }

/-! ## Path resolver (`DependencyGraph.resolveImportPath`)

Node's path functions are modelled for POSIX paths: segments joined by `/`,
with `.`, `..` and empty segments normalized away; all directory arguments in
the source are absolute paths.   `fileExists` abstracts
`DependencyGraph.fileExists` (existence of a regular file on disk). -/

/-- Segment normalization: drop `""` and `"."`, let `".."` pop the previous
segment (or stay at the root of an absolute path). -/
def normAux : List String → List String → List String
  | acc, [] => acc.reverse
  | acc, s :: rest =>
    if s = "" || s = "." then normAux acc rest
    else if s = ".." then
      match acc with
      | [] => normAux [] rest
      | _ :: t => normAux t rest
    else normAux (s :: acc) rest

/-- Normalize an absolute POSIX path. -/
def pathNorm (s : String) : String :=
  "/" ++ joinSep "/" (normAux [] (jsSplit '/' s))

/-- Model of Node `path.resolve(dir, p)` for an absolute `dir`. -/
def pathResolve (dir p : String) : String :=
  if jsStartsWith p "/" then pathNorm p else pathNorm (dir ++ "/" ++ p)

/-- Model of Node `path.join(a, b)` for an absolute `a`. -/
def pathJoin (a b : String) : String :=
  pathNorm (a ++ "/" ++ b)

/-- Remaining segments of `q` after the common prefix with `b`, with `..` for
every remaining segment of `b`. -/
def relSegs : List String → List String → List String
  | [], qs => qs
  | bs, [] => List.replicate bs.length ".."
  | b :: bs, q :: qs =>
    if b = q then relSegs bs qs
    else List.replicate (bs.length + 1) ".." ++ (q :: qs)

/-- Model of Node `path.relative(base, p)` for absolute `base` and `p`. -/
def pathRelative (base p : String) : String :=
  joinSep "/" (relSegs (normAux [] (jsSplit '/' base)) (normAux [] (jsSplit '/' p)))

/-- Model of JavaScript `s.slice(n)` over characters (used to model
`importPath.replace(alias, aliasPath)` under the guard
`importPath.startsWith(alias)`, where `replace` rewrites the first — i.e.
prefix — occurrence). -/
def strDrop (s : String) (n : Nat) : String :=
  String.mk (s.data.drop n)

/-- The extension-probing loop shared by the alias and relative branches of
`resolveImportPath`: for each candidate extension try `fullPath + ext`, then
`fullPath/index + ext`; first hit wins and is returned workspace-relative
(with backslashes normalized, a no-op for POSIX paths). -/
def tryExts (fileExists : String → Bool) (workspacePath fullPath : String) :
    List String → Option String
  | [] => none
  | ext :: rest =>
    let withExt := fullPath ++ ext
    if fileExists withExt then
      some (getNodeId (pathRelative workspacePath withExt))
    else
      let indexPath := pathJoin fullPath ("index" ++ ext)
      if fileExists indexPath then
        some (getNodeId (pathRelative workspacePath indexPath))
      else tryExts fileExists workspacePath fullPath rest

/-- The TypeScript path-alias loop at the top of `resolveImportPath`: the
first alias that prefixes the import path and whose probing finds a file
wins; aliases whose probing finds nothing fall through to later aliases and
then to relative resolution. -/
def aliasResolve (fileExists : String → Bool)
    (importPath workspacePath : String) (extensions : List String) :
    List (String × String) → Option String
  | [] => none
  | (al, alPath) :: rest =>
    if jsStartsWith importPath al then
      let relativePath := alPath ++ strDrop importPath al.length
      let fullPath := pathJoin workspacePath relativePath
      match tryExts fileExists workspacePath fullPath extensions with
      | some r => some r
      | none => aliasResolve fileExists importPath workspacePath extensions rest
    else aliasResolve fileExists importPath workspacePath extensions rest

/-- `DependencyGraph.resolveImportPath`: check configured aliases first; then
resolve only references beginning with `.` or `/` by extension probing (and
finally the bare path); everything else is unresolved (`null`). -/
def resolveImportPath (tsPaths : List (String × String))
    (fileExists : String → Bool) (importPath currentDir workspacePath : String)
    (extensions : List String) : Option String :=
  match aliasResolve fileExists importPath workspacePath extensions tsPaths with
  | some r => some r
  | none =>
    if jsStartsWith importPath "." || jsStartsWith importPath "/" then
      let fullPath := pathResolve currentDir importPath
      match tryExts fileExists workspacePath fullPath extensions with
      | some r => some r
      | none =>
        if fileExists fullPath then
          some (getNodeId (pathRelative workspacePath fullPath))
        else none
    else none

/-! ## The command pipeline (`activate` in `extension.ts`)

Each invocation of the `codeVisualizer.showVisualization` command constructs
a fresh `CodeScanner` and a fresh `DependencyGraph` (whose `tsConfigPaths`
field initializer is an empty map), scans, and builds the graph.  `aliases`
stands for the parsed `compilerOptions.paths` table of the root's
`tsconfig.json` (already stripped of `/*`), and `extract` for the
extraction-and-resolution step, which reads the instance's alias table. -/

/-- The mutable fields of a `DependencyGraph` instance. -/
structure DGState where
  workspacePath : String
  tsConfigPaths : List (String × String)
  deriving Repr, DecidableEq

/-- A freshly constructed `DependencyGraph` (field initializers `''` and an
empty map). -/
def newDependencyGraph : DGState :=
  { workspacePath := "", tsConfigPaths := [] }

/-- `Map.prototype.set`: overwrite the value of an existing key or append a
new binding. -/
def mapSet (m : List (String × String)) (k v : String) :
    List (String × String) :=
  if m.any (fun p => p.1 == k) then
    m.map (fun p => if p.1 == k then (k, v) else p)
  else m ++ [(k, v)]

/-- `DependencyGraph.loadTsConfigPaths`: add every parsed alias to the
instance's (not cleared) `tsConfigPaths` map. -/
def loadTsConfigPaths (st : List (String × String))
    (aliases : List (String × String)) : List (String × String) :=
  aliases.foldl (fun m p => mapSet m p.1 p.2) st

/-- `DependencyGraph.buildGraph` as a method on an instance: store the
workspace path, load the alias table on top of the instance's current one,
and build the graph with an extraction step that sees that table.  Returns
the result together with the instance's state after the call. -/
def buildGraphInstance (st : DGState)
    (extract : List (String × String) → CodeFile → List DependencyInfo)
    (aliases : List (String × String)) (workspacePath : String)
    (files : List CodeFile) : GraphData × DGState :=
  let st1 : DGState :=
    { workspacePath := workspacePath
      tsConfigPaths := loadTsConfigPaths st.tsConfigPaths aliases }
  (buildGraphCore (extract st1.tsConfigPaths) files, st1)

/-- One invocation of the command handler in `activate`: scan the workspace
with a fresh `CodeScanner`, then build the graph with a freshly constructed
`DependencyGraph`.  A scan failure is surfaced as an error and no graph is
produced. -/
def runShowVisualization
    (extract : List (String × String) → CodeFile → List DependencyInfo)
    (aliases : List (String × String)) (root : String) (tree : List FsEntry) :
    Except Unit GraphData :=
  match scanWorkspace root tree with
  | .error e => .error e
  | .ok files =>
    .ok (buildGraphInstance newDependencyGraph extract aliases root files).1

/-- Two consecutive invocations of the command handler; no analysis state is
shared between them (each constructs its scanner and graph builder afresh),
which the pair of independent calls makes explicit. -/
def runTwice
    (extract : List (String × String) → CodeFile → List DependencyInfo)
    (aliases : List (String × String)) (root : String)
    (tree1 tree2 : List FsEntry) :
    Except Unit GraphData × Except Unit GraphData :=
  (runShowVisualization extract aliases root tree1,
   runShowVisualization extract aliases root tree2)

/-! ## Specification-side definitions used by the theorems -/

/-- The flattened iteration of the edge-building double loop: every
`(file, depInfo)` pair in processing order. -/
def depEvents (extract : CodeFile → List DependencyInfo)
    (files : List CodeFile) : List (CodeFile × DependencyInfo) :=
  files.foldr (fun f acc => (extract f).map (fun d => (f, d)) ++ acc) []

/-- The resolved reference pairs: for each event whose reference matches a
node, the pair (source node id, matched target id).  This is the ledger
against which edge aggregation is measured. -/
def resolvedPairs (nodes : List GraphNode)
    (events : List (CodeFile × DependencyInfo)) : List (String × String) :=
  events.filterMap
    (fun p => (findMatchingNode p.2.path nodes).map
      (fun t => (getNodeId p.1.relativePath, t)))

/-- Injectivity of the `edgeMap` string key on a set of id pairs.  It holds
in particular whenever no node id contains the substring `"->"`. -/
def KeyInj (l : List (String × String)) : Prop :=
  ∀ p ∈ l, ∀ q ∈ l, edgeKey p.1 p.2 = edgeKey q.1 q.2 → p = q

/-- The invariant maintained by the edge-building loop: `past` is the list
of resolved pairs processed so far, `edges` the accumulated edge array. -/
structure EdgeInv (past : List (String × String))
    (edges : List GraphEdge) : Prop where
  ne : ∀ e ∈ edges, e.efrom ≠ e.eto
  mem : ∀ e ∈ edges, (e.efrom, e.eto) ∈ past
  complete : ∀ p ∈ past, p.1 ≠ p.2 → ∃ e ∈ edges, (e.efrom, e.eto) = p
  cnt : ∀ e ∈ edges, e.count = past.count (e.efrom, e.eto)
  val : ∀ e ∈ edges, e.value = min e.count 5
  distinct : edges.Pairwise (fun a b => (a.efrom, a.eto) ≠ (b.efrom, b.eto))

/-- The fields of an edge that the circular-marking pass leaves untouched. -/
def edgeData (e : GraphEdge) : String × String × Nat × Nat × DependencyType :=
  (e.efrom, e.eto, e.count, e.value, e.type)

/-- The pair of endpoints of an edge. -/
def edgePair (e : GraphEdge) : String × String :=
  (e.efrom, e.eto)

/-- The fields of a node that the count-updating pass leaves untouched. -/
def nodeFixed (n : GraphNode) : String × String × Bool :=
  (n.id, n.path, n.isCircular)

/-- Circular-marking over the flattened list of cycle-member ids (the nested
`forEach` loops of `buildGraph` visit exactly this list in order). -/
def markIds (ids : List String) (ns : List GraphNode) : List GraphNode :=
  ids.foldl
    (fun ns nodeId =>
      setFirst (fun n => n.id == nodeId)
        (fun n => { n with isCircular := true }) ns)
    ns

/-! ## Concrete inputs used by witnesses and counterexamples -/

/-- A TypeScript file record with the given relative path and content. -/
def tsFile (rel : String) (content : String) : CodeFile :=
  { path := "/ws/" ++ rel, relativePath := rel, content := content,
    language := "typescript" }

/-- Two files importing each other (`a.ts ↔ b.ts`), the spec's scenario 2. -/
def filesAB : List CodeFile := [tsFile "a.ts" "x", tsFile "b.ts" "y"]

/-- Extraction result for `filesAB`: each file holds one reference resolving
to the other. -/
def extractAB (f : CodeFile) : List DependencyInfo :=
  if f.relativePath == "a.ts" then [{ path := "b.ts", type := .importKind }]
  else if f.relativePath == "b.ts" then [{ path := "a.ts", type := .importKind }]
  else []

/-- The `a.ts → b.ts` edge of the graph built from `filesAB` (circular, of
count 1). -/
def edgeAB : GraphEdge :=
  { efrom := "a.ts", eto := "b.ts", value := 1,
    title := "a.ts → b.ts (import)", type := .importKind, count := 1,
    isCircular := true }

/-- The `a.ts` node of the graph built from `filesAB`. -/
def nodeA : GraphNode :=
  { id := "a.ts", label := "a.ts", path := "a.ts", language := "typescript",
    size := 1, lineCount := 1, group := 1, dependencyCount := 1,
    dependentCount := 1, isCircular := true }

/-- Four files whose ids make two distinct ordered pairs collide on the
`edgeMap` key: `edgeKey "a.ts" "m.ts->b.ts" = edgeKey "a.ts->m.ts" "b.ts"`. -/
def filesKey : List CodeFile :=
  [tsFile "a.ts" "", tsFile "a.ts->m.ts" "", tsFile "m.ts->b.ts" "",
   tsFile "b.ts" ""]

/-- Extraction result for `filesKey`: `a.ts` references `m.ts->b.ts` and
`a.ts->m.ts` references `b.ts`. -/
def extractKey (f : CodeFile) : List DependencyInfo :=
  if f.relativePath == "a.ts" then
    [{ path := "m.ts->b.ts", type := .importKind }]
  else if f.relativePath == "a.ts->m.ts" then
    [{ path := "b.ts", type := .importKind }]
  else []

/-- Four files with edges `u→x, u→w, x→v, w→v, v→u`: `w` lies on the
directed cycle `u→w→v→u`, but the DFS reaches `v` first through `x`, so the
back edge of `w`'s cycle meets an already-visited node off the stack. -/
def filesW : List CodeFile :=
  [tsFile "u.ts" "", tsFile "x.ts" "", tsFile "w.ts" "", tsFile "v.ts" ""]

/-- Extraction result for `filesW`. -/
def extractW (f : CodeFile) : List DependencyInfo :=
  if f.relativePath == "u.ts" then
    [{ path := "x.ts", type := .importKind },
     { path := "w.ts", type := .importKind }]
  else if f.relativePath == "x.ts" then [{ path := "v.ts", type := .importKind }]
  else if f.relativePath == "w.ts" then [{ path := "v.ts", type := .importKind }]
  else if f.relativePath == "v.ts" then [{ path := "u.ts", type := .importKind }]
  else []

/-- Two collected files; a raw reference of `src/a.ts` resolves on disk to
`build/utils.ts`, which is not collected (the `build` directory is ignored),
but shares its base filename with the collected `src/utils.ts`. -/
def filesBase : List CodeFile :=
  [tsFile "src/a.ts" "", tsFile "src/utils.ts" ""]

/-- Extraction result for `filesBase`. -/
def extractBase (f : CodeFile) : List DependencyInfo :=
  if f.relativePath == "src/a.ts" then
    [{ path := "build/utils.ts", type := .importKind }]
  else []

/-- An on-disk file set for the Go resolution example: the workspace `/ws`
contains `main.go` and `pkg/util.go`. -/
def goFs : String → Bool :=
  fun p => p == "/ws/pkg/util.go" || p == "/ws/main.go"

/-- A directory `rebuild` (which merely contains the ignored name `build`
as a substring) holding one TypeScript file. -/
def treeRebuild : List FsEntry :=
  [.dir "rebuild" true [.file "buildutils.ts" (some "k")]]

/-- The scan result for `treeRebuild` under root `/r`. -/
def filesRebuild : List CodeFile :=
  [{ path := "/r/rebuild/buildutils.ts",
     relativePath := "rebuild/buildutils.ts", content := "k",
     language := "typescript" }]

/-! ## Generic lemmas about `setFirst` and folds -/

theorem setFirst_map_proj {p : α → Bool} {f : α → α} {proj : α → β}
    (h : ∀ x, proj (f x) = proj x) :
    ∀ l : List α, (setFirst p f l).map proj = l.map proj := by
  intro l
  induction l with
  | nil => rfl
  | cons x xs ih =>
    by_cases hp : p x
    · simp [setFirst, hp, h x]
    · simp [setFirst, hp, ih]

theorem setFirst_setFirst_map_proj {p q : α → Bool} {f g : α → α}
    {proj : α → β} (h1 : ∀ x, proj (f x) = proj x)
    (h2 : ∀ x, proj (g x) = proj x) (l : List α) :
    (setFirst p f (setFirst q g l)).map proj = l.map proj :=
  (setFirst_map_proj h1 _).trans (setFirst_map_proj h2 l)

theorem setFirst_congr {p q : α → Bool} {f : α → α} {l : List α}
    (h : ∀ x ∈ l, p x = q x) :
    setFirst p f l = setFirst q f l := by
  induction l with
  | nil => rfl
  | cons x xs ih =>
    have hx := h x (by simp)
    by_cases hp : p x
    · simp [setFirst, hp, hx ▸ hp]
    · have hq : ¬ q x = true := by rw [← hx]; exact hp
      simp [setFirst, hp, hq]
      exact ih fun y hy => h y (by simp [hy])

theorem mem_setFirst {p : α → Bool} {f : α → α} {l : List α} {y : α}
    (h : y ∈ setFirst p f l) : y ∈ l ∨ ∃ x ∈ l, p x ∧ y = f x := by
  induction l with
  | nil => simp [setFirst] at h
  | cons x xs ih =>
    by_cases hp : p x
    · simp [setFirst, hp] at h
      rcases h with h | h
      · exact Or.inr ⟨x, by simp, hp, h⟩
      · exact Or.inl (by simp [h])
    · simp [setFirst, hp] at h
      rcases h with h | h
      · exact Or.inl (by simp [h])
      · rcases ih h with h' | ⟨x', hx', hpx', hy⟩
        · exact Or.inl (by simp [h'])
        · exact Or.inr ⟨x', by simp [hx'], hpx', hy⟩

theorem setFirst_eq_map {p : α → Bool} {f : α → α} {l : List α}
    (h : l.countP p ≤ 1) :
    setFirst p f l = l.map (fun x => if p x then f x else x) := by
  induction l with
  | nil => rfl
  | cons x xs ih =>
    rw [List.countP_cons] at h
    by_cases hp : p x
    · rw [if_pos hp] at h
      have hxs : xs.countP p = 0 := by omega
      have hall : ∀ y ∈ xs, ¬ p y = true := List.countP_eq_zero.mp hxs
      have hmap : xs.map (fun y => if p y then f y else y) = xs := by
        conv_rhs => rw [← List.map_id xs]
        exact List.map_congr_left fun y hy => by simp [hall y hy]
      simp [setFirst, hp, hmap]
    · rw [if_neg hp] at h
      have hstep : setFirst p f (x :: xs) = x :: setFirst p f xs := by
        simp [setFirst, hp]
      rw [hstep, ih (by omega), List.map_cons, if_neg hp]

theorem foldl_preserves_map_proj {step : List α → γ → List α} {proj : α → β}
    (h : ∀ acc x, (step acc x).map proj = acc.map proj) :
    ∀ (l : List γ) (acc : List α),
      (l.foldl step acc).map proj = acc.map proj := by
  intro l
  induction l with
  | nil => intro acc; rfl
  | cons x xs ih => intro acc; rw [List.foldl_cons, ih, h]

theorem foldl_preserves_forall {step : β → γ → β} {P : β → Prop}
    (h : ∀ acc x, P acc → P (step acc x)) :
    ∀ (l : List γ) (acc : β), P acc → P (l.foldl step acc) := by
  intro l
  induction l with
  | nil => intro acc hacc; exact hacc
  | cons x xs ih => intro acc hacc; exact ih _ (h acc x hacc)

/-! ## File collector: scan equality and admission -/

theorem getLastD_append_singleton (pre : List String) (name d : String) :
    (pre ++ [name]).getLastD d = name := by
  induction pre with
  | nil => rfl
  | cons x xs ih =>
    cases xs with
    | nil => rfl
    | cons y ys => simpa using ih

theorem mkCodeFile_eq_toFile (root : String) (pre : List String)
    (name c : String) :
    mkCodeFile root pre name c = toFile root (pre ++ [name], c) := by
  simp [mkCodeFile, toFile, getLastD_append_singleton]

theorem allFiles_extends :
    ∀ (pre : List String) (es : List FsEntry),
      ∀ x ∈ allFiles pre es, ∃ suf, x.1 = pre ++ suf := by
  intro pre es
  induction pre, es using allFiles.induct with
  | case1 pre => simp [allFiles]
  | case2 pre name content rest ih =>
    intro x hx
    rw [allFiles] at hx
    rcases List.mem_cons.mp hx with hx | hx
    · exact ⟨[name], by simp [hx]⟩
    · exact ih x hx
  | case3 pre name readable entries rest ih1 ih2 =>
    intro x hx
    rw [allFiles] at hx
    rcases List.mem_append.mp hx with hx | hx
    · rcases ih1 x hx with ⟨suf, hsuf⟩
      exact ⟨name :: suf, by simp [hsuf]⟩
    · exact ih2 x hx

theorem shouldIgnore_extends {pre : List String} (suf : List String)
    (h : shouldIgnore pre = true) : shouldIgnore (pre ++ suf) = true := by
  simp only [shouldIgnore, List.any_eq_true] at h ⊢
  rcases h with ⟨pat, hpat, hmem⟩
  refine ⟨pat, hpat, ?_⟩
  have hm : pat ∈ pre := by simpa using hmem
  simpa using List.mem_append.mpr (Or.inl hm)

theorem collectAnn_ignored (pre : List String) (es : List FsEntry)
    (h : shouldIgnore pre = true) : collectAnn pre es = [] := by
  rw [collectAnn, List.filterMap_eq_nil]
  intro x hx
  rcases allFiles_extends pre es x hx with ⟨suf, hsuf⟩
  have hig : shouldIgnore x.1 = true := hsuf ▸ shouldIgnore_extends suf h
  simp [eligibleSegs, hig]

theorem collectAnn_cons_file (pre : List String) (name : String)
    (content : Option String) (rest : List FsEntry) :
    collectAnn pre (.file name content :: rest) =
      (if eligibleSegs (pre ++ [name]) then
        (content.map (fun c => [(pre ++ [name], c)])).getD []
      else []) ++ collectAnn pre rest := by
  rw [collectAnn, allFiles, List.filterMap_cons, collectAnn]
  by_cases he : eligibleSegs (pre ++ [name])
  · cases content with
    | none => simp [he]
    | some c => simp [he]
  · simp [he]

theorem collectAnn_cons_dir (pre : List String) (name : String)
    (readable : Bool) (entries rest : List FsEntry) :
    collectAnn pre (.dir name readable entries :: rest) =
      collectAnn (pre ++ [name]) entries ++ collectAnn pre rest := by
  rw [collectAnn, allFiles, List.filterMap_append, collectAnn, collectAnn]

theorem scanList_eq (root : String) :
    ∀ (pre : List String) (es : List FsEntry),
      scanList root pre es =
        if hasBadDir pre es then .error ()
        else .ok ((collectAnn pre es).map (toFile root)) := by
  intro pre es
  induction pre, es using scanList.induct root with
  | case1 pre =>
    simp [scanList, hasBadDir, collectAnn, allFiles]
  | case2 pre name content rest hig ih =>
    have hel : eligibleSegs (pre ++ [name]) = false := by
      simp [eligibleSegs, hig]
    cases content with
    | some c =>
      rw [scanList, if_pos hig, ih, hasBadDir, collectAnn_cons_file]
      simp [hel]
    | none =>
      rw [scanList, if_pos hig, ih, hasBadDir, collectAnn_cons_file]
      simp [hel]
  | case3 pre name rest hig hext c ih =>
    have hext' : extnameOf name ∈ supportedExtensions := by simpa using hext
    have hel : eligibleSegs (pre ++ [name]) = true := by
      simp only [eligibleSegs, getLastD_append_singleton]
      simp only [Bool.not_eq_true] at hig
      simp [hext', hig]
    by_cases hb : hasBadDir pre rest
    · have ih' : scanList root pre rest = .error () := by rw [ih, if_pos hb]
      rw [scanList, if_neg hig, if_pos hext, ih', hasBadDir, if_pos hb]
      rfl
    · have ih' : scanList root pre rest =
          .ok ((collectAnn pre rest).map (toFile root)) := by
        rw [ih, if_neg hb]
      rw [scanList, if_neg hig, if_pos hext, ih', hasBadDir, if_neg hb,
        collectAnn_cons_file, if_pos hel, mkCodeFile_eq_toFile]
      rfl
  | case4 pre name rest hig hext ih =>
    have hext' : extnameOf name ∈ supportedExtensions := by simpa using hext
    have hel : eligibleSegs (pre ++ [name]) = true := by
      simp only [eligibleSegs, getLastD_append_singleton]
      simp only [Bool.not_eq_true] at hig
      simp [hext', hig]
    rw [scanList, if_neg hig, if_pos hext, ih, hasBadDir, collectAnn_cons_file]
    simp [hel]
  | case5 pre name content rest hig hext ih =>
    have hext' : extnameOf name ∉ supportedExtensions := by
      intro hm
      exact hext (by simpa using hm)
    have hel : eligibleSegs (pre ++ [name]) = false := by
      simp only [eligibleSegs, getLastD_append_singleton]
      simp [hext']
    cases content with
    | some c =>
      rw [scanList, if_neg hig, if_neg hext, ih, hasBadDir,
        collectAnn_cons_file]
      simp [hel]
    | none =>
      rw [scanList, if_neg hig, if_neg hext, ih, hasBadDir,
        collectAnn_cons_file]
      simp [hel]
  | case6 pre name readable entries rest hig ih =>
    rw [scanList, if_pos hig, ih, hasBadDir, if_pos hig, collectAnn_cons_dir,
      collectAnn_ignored (pre ++ [name]) entries hig]
    simp
  | case7 pre name entries rest hig ih1 ih2 =>
    by_cases hb1 : hasBadDir (pre ++ [name]) entries
    · have ih1' : scanList root (pre ++ [name]) entries = .error () := by
        rw [ih1, if_pos hb1]
      rw [scanList, if_neg hig, if_pos rfl, ih1', hasBadDir, if_neg hig,
        if_pos (show (!true || hasBadDir (pre ++ [name]) entries
          || hasBadDir pre rest) = true by simp [hb1])]
      rfl
    · have ih1' : scanList root (pre ++ [name]) entries =
          .ok ((collectAnn (pre ++ [name]) entries).map (toFile root)) := by
        rw [ih1, if_neg hb1]
      by_cases hb2 : hasBadDir pre rest
      · have ih2' : scanList root pre rest = .error () := by
          rw [ih2, if_pos hb2]
        rw [scanList, if_neg hig, if_pos rfl, ih1', ih2', hasBadDir,
          if_neg hig,
          if_pos (show (!true || hasBadDir (pre ++ [name]) entries
            || hasBadDir pre rest) = true by simp [hb2])]
        rfl
      · have ih2' : scanList root pre rest =
            .ok ((collectAnn pre rest).map (toFile root)) := by
          rw [ih2, if_neg hb2]
        rw [scanList, if_neg hig, if_pos rfl, ih1', ih2', hasBadDir,
          if_neg hig,
          if_neg (show ¬ (!true || hasBadDir (pre ++ [name]) entries
            || hasBadDir pre rest) = true by simp [hb1, hb2]),
          collectAnn_cons_dir, List.map_append]
        rfl
  | case8 pre name readable entries rest hig hr =>
    rw [scanList, if_neg hig, if_neg hr, hasBadDir, if_neg hig]
    have hrf : readable = false := by
      cases readable
      · rfl
      · exact absurd rfl hr
    simp [hrf]

/-- C8: if reading one file's content fails, that file is excluded from the
node set and the scan still completes over the remaining files; if reading a
directory that the traversal visits fails, the entire scan fails with a
scan-level error and no partial result is returned. -/
theorem scan_error_semantics (root : String) (tree : List FsEntry) :
    scanWorkspace root tree =
      if hasBadDir [] tree then .error ()
      else .ok ((collectAnn [] tree).map (toFile root)) :=
  scanList_eq root [] tree

/-- C7: a successful scan returns exactly the admitted files, and a file is
admitted exactly when its extension is in the supported set and no segment
of its relative path equals an ignored directory name (a name merely
containing an ignored name as a substring is a different segment, hence
still collected). -/
theorem collector_admission (root : String) (tree : List FsEntry)
    (fs : List CodeFile) (h : scanWorkspace root tree = .ok fs) :
    fs = (collectAnn [] tree).map (toFile root) ∧
    ∀ segs c, ((segs, c) ∈ collectAnn [] tree ↔
      (segs, some c) ∈ allFiles [] tree ∧
      supportedExtensions.contains (extnameOf (segs.getLastD "")) = true ∧
      shouldIgnore segs = false) := by
  constructor
  · rw [scanWorkspace, scanList_eq] at h
    by_cases hb : hasBadDir [] tree
    · rw [if_pos hb] at h
      exact absurd h (by simp)
    · rw [if_neg hb] at h
      injection h with h
      exact h.symm
  · intro segs c
    constructor
    · intro hmem
      rcases List.mem_filterMap.mp hmem with ⟨x, hx, hfx⟩
      by_cases he : eligibleSegs x.1
      · rw [if_pos he] at hfx
        obtain ⟨segs', c?⟩ := x
        cases c? with
        | none => simp at hfx
        | some c' =>
          simp only [Option.map_some] at hfx
          injection hfx with hfx
          have h1 : segs' = segs := congrArg Prod.fst hfx
          have h2 : c' = c := congrArg Prod.snd hfx
          subst h1
          subst h2
          refine ⟨hx, ?_, ?_⟩
          · have := (Bool.and_eq_true _ _).mp he
            exact this.1
          · have := (Bool.and_eq_true _ _).mp he
            simpa using this.2
      · rw [if_neg he] at hfx
        simp at hfx
    · rintro ⟨hmem, hext, hig⟩
      apply List.mem_filterMap.mpr
      refine ⟨(segs, some c), hmem, ?_⟩
      have he : eligibleSegs segs = true := by
        unfold eligibleSegs
        rw [hext, hig]
        rfl
      simp [he]

/-- C7 witness: scanning a tree whose directory `rebuild` merely contains
the ignored name `build` as a substring still collects its file
`buildutils.ts`. -/
theorem collector_admission_witness :
    filesRebuild = (collectAnn [] treeRebuild).map (toFile "/r") ∧
    ((["rebuild", "buildutils.ts"], "k") ∈ collectAnn [] treeRebuild ↔
      (["rebuild", "buildutils.ts"], some "k") ∈ allFiles [] treeRebuild ∧
      supportedExtensions.contains
        (extnameOf ((["rebuild", "buildutils.ts"] : List String).getLastD ""))
          = true ∧
      shouldIgnore ["rebuild", "buildutils.ts"] = false) :=
  by
  have h : scanWorkspace "/r" treeRebuild = .ok filesRebuild := by
    rw [scanWorkspace, scanList_eq]
    simp [hasBadDir, collectAnn, allFiles, treeRebuild, filesRebuild,
      eligibleSegs, toFile, mkCodeFile]
    decide
  exact ⟨(collector_admission "/r" treeRebuild filesRebuild h).1,
    (collector_admission "/r" treeRebuild filesRebuild h).2
      ["rebuild", "buildutils.ts"] "k"⟩

/-! ## Path resolver: non-relative references -/

/-- C6 counterexample: a Go module-root style import (`"pkg/util"`, no
leading `.` or `/`) is not resolved even though `./pkg/util` resolves to an
existing `pkg/util.go` under the same probing — non-relative references are
not treated like relative ones. -/
theorem go_module_import_unresolved :
    resolveImportPath [] goFs "pkg/util" "/ws" "/ws" [".go"] = none ∧
    resolveImportPath [] goFs "./pkg/util" "/ws" "/ws" [".go"] =
      some "pkg/util.go" ∧
    goFs "/ws/pkg/util.go" = true := by
  decide

/-- C6 (amended): a reference that begins with neither `.` nor `/` is only
ever resolved through a matching configured alias; when no alias prefixes
it, resolution returns `null` regardless of what exists on disk. -/
theorem nonrelative_import_resolution (tsPaths : List (String × String))
    (fileExists : String → Bool)
    (importPath currentDir workspacePath : String) (extensions : List String)
    (hal : ∀ q ∈ tsPaths, jsStartsWith importPath q.1 = false)
    (h1 : jsStartsWith importPath "." = false)
    (h2 : jsStartsWith importPath "/" = false) :
    resolveImportPath tsPaths fileExists importPath currentDir workspacePath
      extensions = none := by
  have ha : ∀ (l : List (String × String)),
      (∀ q ∈ l, jsStartsWith importPath q.1 = false) →
      aliasResolve fileExists importPath workspacePath extensions l = none := by
    intro l
    induction l with
    | nil => intro _; rfl
    | cons q rest ih =>
      intro hall
      obtain ⟨al, alPath⟩ := q
      have hq : jsStartsWith importPath al = false :=
        hall (al, alPath) (List.mem_cons_self _ _)
      rw [aliasResolve, if_neg (by simp [hq])]
      exact ih fun q hq2 => hall q (List.mem_cons_of_mem _ hq2)
  simp only [resolveImportPath, ha tsPaths hal, h1, h2]
  simp

/-- C6 witness for the amended statement: with an alias table whose only
alias does not prefix the reference, the Go module-root import stays
unresolved. -/
theorem nonrelative_import_resolution_witness :
    resolveImportPath [("@app", "src")] goFs "pkg/util" "/ws" "/ws" [".go"] =
      none :=
  nonrelative_import_resolution _ _ _ _ _ _ (by decide) (by decide) (by decide)

/-! ## Node matching: soundness and the base-filename fallback -/

/-- C4 counterexample: a raw reference of `src/a.ts` resolves on disk to
`build/utils.ts`, which is not among the collected files, yet the
base-filename fallback matches the collected `src/utils.ts` and an edge is
created — a reference resolving outside the collected set is not equivalent
to unresolved. -/
theorem basename_fallback_creates_edge :
    ((buildGraphCore extractBase filesBase).nodes.map (·.path)).contains
      "build/utils.ts" = false ∧
    (extractBase (tsFile "src/a.ts" "")).map (fun d => d.path) =
      ["build/utils.ts"] ∧
    (buildGraphCore extractBase filesBase).edges.map
      (fun e => (e.efrom, e.eto)) = [("src/a.ts", "src/utils.ts")] := by
  decide

/-- C4 (amended): node matching never invents a node — any returned target
id belongs to a node of the list — and a resolved path is equivalent to
unresolved (no edge source) only when additionally no collected node shares
its base filename. -/
theorem findMatchingNode_sound (nodes : List GraphNode) (p : String) :
    ((∀ n ∈ nodes, ¬(n.path = p ∨ jsBasename n.path = jsBasename p)) →
      findMatchingNode p nodes = none) ∧
    (∀ t, findMatchingNode p nodes = some t → ∃ n ∈ nodes, n.id = t) := by
  constructor
  · intro h
    have h1 : nodes.find? (fun n => n.path == p) = none := by
      rw [List.find?_eq_none]
      intro n hn
      simp only [beq_iff_eq]
      intro hc
      exact h n hn (Or.inl hc)
    have h2 : nodes.find? (fun n => jsBasename n.path == jsBasename p) = none := by
      rw [List.find?_eq_none]
      intro n hn
      simp only [beq_iff_eq]
      intro hc
      exact h n hn (Or.inr hc)
    rw [findMatchingNode, h1, h2]
  · intro t ht
    rw [findMatchingNode] at ht
    cases hf1 : nodes.find? (fun n => n.path == p) with
    | some n =>
      rw [hf1] at ht
      injection ht with ht
      exact ⟨n, List.mem_of_find?_eq_some hf1, ht⟩
    | none =>
      rw [hf1] at ht
      cases hf2 : nodes.find? (fun n => jsBasename n.path == jsBasename p) with
      | some n =>
        rw [hf2] at ht
        injection ht with ht
        exact ⟨n, List.mem_of_find?_eq_some hf2, ht⟩
      | none =>
        rw [hf2] at ht
        exact absurd ht (by simp)

/-- C4 witness for the amended statement: a path matching nothing is
unresolved, and the fallback target of `build/utils.ts` is an existing
node's id. -/
theorem findMatchingNode_sound_witness :
    findMatchingNode "zzz.py" (buildNodes filesBase) = none ∧
    ∃ n ∈ buildNodes filesBase, n.id = "src/utils.ts" :=
  ⟨(findMatchingNode_sound (buildNodes filesBase) "zzz.py").1 (by decide),
   (findMatchingNode_sound (buildNodes filesBase) "build/utils.ts").2
     "src/utils.ts" (by decide)⟩

/-! ## Cycle recording and the pipeline -/

/-- C2: on the two-file mutual-import graph the recorded cycle is the
lexicographically sorted id sequence `["a.ts", "a.ts", "b.ts"]` — the
in-place `Array.prototype.sort` used to compute the dedup key mutates the
recorded array — and that sequence is not a directed walk (there is no
`a.ts → a.ts` edge), whereas the path slice would be
`["a.ts", "b.ts", "a.ts"]`. -/
theorem detect_records_sorted_sequence :
    (buildGraphCore extractAB filesAB).circularDependencies =
      [["a.ts", "a.ts", "b.ts"]] ∧
    (buildGraphCore extractAB filesAB).edges.map (fun e => (e.efrom, e.eto)) =
      [("a.ts", "b.ts"), ("b.ts", "a.ts")] := by
  decide

/-- C3 counterexample: in the graph with edges `u→x, u→w, x→v, w→v, v→u`,
node `w.ts` lies on the directed cycle `u→w→v→u` (all three edges are
present), but the DFS reaches `v` through `x` first, so `w`'s cycle is never
recorded and `w.ts` ends up with `isCircular = false`. -/
theorem cycle_node_not_flagged :
    (buildGraphCore extractW filesW).edges.map (fun e => (e.efrom, e.eto)) =
      [("u.ts", "x.ts"), ("u.ts", "w.ts"), ("x.ts", "v.ts"),
       ("w.ts", "v.ts"), ("v.ts", "u.ts")] ∧
    (buildGraphCore extractW filesW).nodes.map
      (fun n => (n.id, n.isCircular)) =
      [("u.ts", true), ("x.ts", true), ("w.ts", false), ("v.ts", true)] := by
  decide

/-- C9: consecutive invocations of the command handler share no analysis
state — each constructs a fresh scanner and graph builder — so two runs over
the same tree return structurally identical results and the second run's
output does not depend on what the first run scanned. -/
theorem scan_idempotent_no_shared_state
    (extract : List (String × String) → CodeFile → List DependencyInfo)
    (aliases : List (String × String)) (root : String)
    (tree tree1 : List FsEntry) :
    runTwice extract aliases root tree tree =
      (runShowVisualization extract aliases root tree,
       runShowVisualization extract aliases root tree) ∧
    (runTwice extract aliases root tree1 tree).2 =
      runShowVisualization extract aliases root tree :=
  ⟨rfl, rfl⟩

/-! ## Graph builder: structural lemmas -/

theorem depEvents_cons (extract : CodeFile → List DependencyInfo)
    (f : CodeFile) (fs : List CodeFile) :
    depEvents extract (f :: fs) =
      (extract f).map (fun d => (f, d)) ++ depEvents extract fs := rfl

theorem depEvents_fst (extract : CodeFile → List DependencyInfo) :
    ∀ (files : List CodeFile), ∀ p ∈ depEvents extract files, p.1 ∈ files := by
  intro files
  induction files with
  | nil => intro p hp; cases hp
  | cons f fs ih =>
    intro p hp
    rw [depEvents_cons] at hp
    rcases List.mem_append.mp hp with hp | hp
    · rcases List.mem_map.mp hp with ⟨d, _, rfl⟩
      simp
    · simp [ih p hp]

theorem buildEdges_eq_events (extract : CodeFile → List DependencyInfo)
    (nodes : List GraphNode) (files : List CodeFile) :
    buildEdges extract nodes files =
      (depEvents extract files).foldl
        (fun edges p =>
          processDep nodes p.1 (getNodeId p.1.relativePath) edges p.2) [] := by
  rw [buildEdges]
  generalize ([] : List GraphEdge) = init
  induction files generalizing init with
  | nil => rfl
  | cons f fs ih =>
    rw [List.foldl_cons, ih, depEvents_cons, List.foldl_append, List.foldl_map]

/-- The second component of `findMatchingNode` soundness, as a reusable
helper: a returned target id belongs to a node of the list. -/
theorem findMatchingNode_mem {nodes : List GraphNode} {p t : String}
    (ht : findMatchingNode p nodes = some t) : ∃ n ∈ nodes, n.id = t := by
  rw [findMatchingNode] at ht
  cases hf1 : nodes.find? (fun n => n.path == p) with
  | some n =>
    rw [hf1] at ht
    injection ht with ht
    exact ⟨n, List.mem_of_find?_eq_some hf1, ht⟩
  | none =>
    rw [hf1] at ht
    cases hf2 : nodes.find? (fun n => jsBasename n.path == jsBasename p) with
    | some n =>
      rw [hf2] at ht
      injection ht with ht
      exact ⟨n, List.mem_of_find?_eq_some hf2, ht⟩
    | none =>
      rw [hf2] at ht
      exact absurd ht (by simp)

theorem mem_incEdge {k : String} {edges : List GraphEdge} {e : GraphEdge}
    (h : e ∈ incEdge k edges) :
    ∃ e₀ ∈ edges, e.efrom = e₀.efrom ∧ e.eto = e₀.eto := by
  rcases mem_setFirst h with h' | ⟨x, hx, _, rfl⟩
  · exact ⟨e, h', rfl, rfl⟩
  · exact ⟨x, hx, rfl, rfl⟩

theorem buildEdges_endpoints (extract : CodeFile → List DependencyInfo)
    (nodes : List GraphNode) (files : List CodeFile) :
    ∀ e ∈ buildEdges extract nodes files,
      e.efrom ≠ e.eto ∧
      (∃ f ∈ files, e.efrom = getNodeId f.relativePath) ∧
      (∃ n ∈ nodes, n.id = e.eto) := by
  rw [buildEdges_eq_events]
  have main : ∀ (evs : List (CodeFile × DependencyInfo))
      (acc : List GraphEdge),
      (∀ p ∈ evs, p.1 ∈ files) →
      (∀ e ∈ acc, e.efrom ≠ e.eto ∧
        (∃ f ∈ files, e.efrom = getNodeId f.relativePath) ∧
        (∃ n ∈ nodes, n.id = e.eto)) →
      ∀ e ∈ evs.foldl
        (fun edges p =>
          processDep nodes p.1 (getNodeId p.1.relativePath) edges p.2) acc,
        e.efrom ≠ e.eto ∧
        (∃ f ∈ files, e.efrom = getNodeId f.relativePath) ∧
        (∃ n ∈ nodes, n.id = e.eto) := by
    intro evs
    induction evs with
    | nil => intro acc _ hacc; exact hacc
    | cons ev rest ih =>
      intro acc hev hacc
      rw [List.foldl_cons]
      refine ih _ (fun p hp => hev p (List.mem_cons_of_mem _ hp)) ?_
      intro e he
      rw [processDep] at he
      cases hm : findMatchingNode ev.2.path nodes with
      | none => simp only [hm] at he; exact hacc e he
      | some t =>
        simp only [hm] at he
        by_cases hts : t ≠ getNodeId ev.1.relativePath
        · rw [if_pos hts] at he
          by_cases hany : acc.any (fun e' =>
              edgeKey e'.efrom e'.eto ==
                edgeKey (getNodeId ev.1.relativePath) t)
          · rw [if_pos hany] at he
            rcases mem_incEdge he with ⟨e₀, he₀, hf, ht⟩
            rcases hacc e₀ he₀ with ⟨h1, h2, h3⟩
            exact ⟨hf ▸ ht ▸ h1, hf ▸ h2, ht ▸ h3⟩
          · rw [if_neg hany] at he
            rcases List.mem_append.mp he with he | he
            · exact hacc e he
            · rcases List.mem_singleton.mp he with rfl
              refine ⟨fun hc => hts hc.symm, ?_, findMatchingNode_mem hm⟩
              exact ⟨ev.1, hev ev (List.mem_cons_self _ _), rfl⟩
        · rw [if_neg hts] at he
          exact hacc e he
  exact main _ [] (depEvents_fst extract files) (by intro e he; cases he)

/-! ## Marking passes preserve the data they do not touch -/

theorem markCircularEdges_data (circles : List (List String))
    (edges : List GraphEdge) :
    (markCircularEdges circles edges).map edgeData = edges.map edgeData := by
  apply foldl_preserves_map_proj
  intro acc c
  apply foldl_preserves_map_proj
  intro acc2 q
  apply setFirst_map_proj
  intro x
  rfl

theorem markCircularNodes_eq_markIds (circles : List (List String)) :
    ∀ ns : List GraphNode,
      markCircularNodes circles ns = markIds circles.join ns := by
  induction circles with
  | nil => intro ns; rfl
  | cons c cs ih =>
    intro ns
    show List.foldl _ (List.foldl _ ns c) cs = _
    rw [show List.join (c :: cs) = c ++ cs.join from rfl, markIds,
      List.foldl_append]
    exact ih _

theorem markIds_map_counts (ids : List String) (ns : List GraphNode) :
    (markIds ids ns).map (fun n => (n.id, n.dependencyCount, n.dependentCount))
      = ns.map (fun n => (n.id, n.dependencyCount, n.dependentCount)) := by
  apply foldl_preserves_map_proj
  intro acc i
  apply setFirst_map_proj
  intro x
  rfl

theorem updateCounts_map_fixed (ns : List GraphNode) (es : List GraphEdge) :
    (updateCounts ns es).map (fun n => (n.id, n.path, n.isCircular))
      = ns.map (fun n => (n.id, n.path, n.isCircular)) := by
  apply foldl_preserves_map_proj
  intro acc e
  apply setFirst_setFirst_map_proj
  · intro x
    rfl
  · intro x
    rfl

/-- C1 counterexample: with collected files `a.ts`, `a.ts->m.ts`,
`m.ts->b.ts`, `b.ts`, the ordered pairs `(a.ts, m.ts->b.ts)` and
`(a.ts->m.ts, b.ts)` produce the same `edgeMap` key, so the single raw
reference of `a.ts->m.ts` that resolved to `b.ts` increments the unrelated
edge `a.ts → m.ts->b.ts` (count 2 for one raw reference) and no
`a.ts->m.ts → b.ts` edge exists. -/
theorem edge_key_collision_merges_pairs :
    (buildGraphCore extractKey filesKey).edges.map
      (fun e => (e.efrom, e.eto, e.count)) = [("a.ts", "m.ts->b.ts", 2)] ∧
    (resolvedPairs (buildNodes filesKey)
      (depEvents extractKey filesKey)).count ("a.ts->m.ts", "b.ts") = 1 ∧
    edgeKey "a.ts" "m.ts->b.ts" = edgeKey "a.ts->m.ts" "b.ts" := by
  decide

theorem markCircularNodes_map_id (circles : List (List String))
    (ns : List GraphNode) :
    (markCircularNodes circles ns).map (·.id) = ns.map (·.id) := by
  apply foldl_preserves_map_proj
  intro acc c
  apply foldl_preserves_map_proj
  intro acc2 i
  apply setFirst_map_proj
  intro x
  rfl

theorem updateCounts_map_id (ns : List GraphNode) (es : List GraphEdge) :
    (updateCounts ns es).map (·.id) = ns.map (·.id) := by
  apply foldl_preserves_map_proj
  intro acc e
  apply setFirst_setFirst_map_proj
  · intro x
    rfl
  · intro x
    rfl

theorem buildGraphCore_nodes_map_id (extract : CodeFile → List DependencyInfo)
    (files : List CodeFile) :
    (buildGraphCore extract files).nodes.map (·.id) =
      (buildNodes files).map (·.id) := by
  show (markCircularNodes _ (updateCounts (buildNodes files) _)).map (·.id) = _
  rw [markCircularNodes_map_id, updateCounts_map_id]

theorem buildGraphCore_edges_data (extract : CodeFile → List DependencyInfo)
    (files : List CodeFile) :
    (buildGraphCore extract files).edges.map edgeData =
      (buildEdges extract (buildNodes files) files).map edgeData := by
  show (markCircularEdges _ _).map edgeData = _
  rw [markCircularEdges_data]

/-- C10: both endpoints of every edge of a built graph are identifiers of
nodes present in the node list, so dereferencing `edge.from` and `edge.to`
against the nodes cannot miss. -/
theorem edge_endpoints_are_nodes (extract : CodeFile → List DependencyInfo)
    (files : List CodeFile) :
    ∀ e ∈ (buildGraphCore extract files).edges,
      (∃ n ∈ (buildGraphCore extract files).nodes, n.id = e.efrom) ∧
      (∃ n ∈ (buildGraphCore extract files).nodes, n.id = e.eto) := by
  intro e he
  have hmem : edgeData e ∈
      (buildEdges extract (buildNodes files) files).map edgeData := by
    rw [← buildGraphCore_edges_data]
    exact List.mem_map_of_mem _ he
  rcases List.mem_map.mp hmem with ⟨e₀, he₀, hde⟩
  have hfrom : e₀.efrom = e.efrom := congrArg (fun q => q.1) hde
  have hto : e₀.eto = e.eto := congrArg (fun q => q.2.1) hde
  rcases buildEdges_endpoints extract (buildNodes files) files e₀ he₀ with
    ⟨_, ⟨f, hf, hfe⟩, ⟨n, hn, hne⟩⟩
  have hids := buildGraphCore_nodes_map_id extract files
  constructor
  · have h1 : e.efrom ∈ (buildNodes files).map (·.id) := by
      refine List.mem_map.mpr ⟨mkNode f, List.mem_map_of_mem _ hf, ?_⟩
      rw [← hfrom, hfe]
      rfl
    rw [← hids] at h1
    rcases List.mem_map.mp h1 with ⟨n', hn', hn'e⟩
    exact ⟨n', hn', hn'e⟩
  · have h2 : e.eto ∈ (buildNodes files).map (·.id) :=
      List.mem_map.mpr ⟨n, hn, by rw [hne, hto]⟩
    rw [← hids] at h2
    rcases List.mem_map.mp h2 with ⟨n', hn', hn'e⟩
    exact ⟨n', hn', hn'e⟩

/-- C10 witness: on the two-file mutual-import graph, the `a.ts → b.ts`
edge's endpoints are node ids. -/
theorem edge_endpoints_are_nodes_witness :
    edgeAB ∈ (buildGraphCore extractAB filesAB).edges ∧
    ((∃ n ∈ (buildGraphCore extractAB filesAB).nodes, n.id = edgeAB.efrom) ∧
     (∃ n ∈ (buildGraphCore extractAB filesAB).nodes, n.id = edgeAB.eto)) :=
  ⟨by decide, edge_endpoints_are_nodes extractAB filesAB edgeAB (by decide)⟩

/-! ## Edge aggregation invariant -/

theorem keyInj_subset {L l : List (String × String)} (h : KeyInj L)
    (hsub : ∀ x ∈ l, x ∈ L) : KeyInj l :=
  fun p hp q hq hk => h p (hsub p hp) q (hsub q hq) hk

theorem key_match_iff {L : List (String × String)} (hinj : KeyInj L)
    {e : GraphEdge} (heL : (e.efrom, e.eto) ∈ L) {p : String × String}
    (hpL : p ∈ L) :
    ((edgeKey e.efrom e.eto == edgeKey p.1 p.2) = true) ↔
      (e.efrom, e.eto) = p := by
  constructor
  · intro h
    exact hinj _ heL _ hpL (by simpa using h)
  · intro h
    simp [← h]

theorem countP_le_one_of_pairwise {β : Type} [BEq β] [LawfulBEq β]
    {f : α → β} {l : List α}
    (h : l.Pairwise (fun a b => f a ≠ f b)) (v : β) :
    l.countP (fun x => f x == v) ≤ 1 := by
  induction l with
  | nil => simp
  | cons a as ih =>
    rw [List.countP_cons]
    rcases List.pairwise_cons.mp h with ⟨ha, htail⟩
    by_cases hv : f a = v
    · have hz : as.countP (fun x => f x == v) = 0 := by
        rw [List.countP_eq_zero]
        intro x hx
        simp only [beq_iff_eq]
        intro hc
        exact ha x hx (hv.trans hc.symm)
      rw [hz]
      by_cases hb : (f a == v) = true
      · simp [hb]
      · simp [hb]
    · have : (f a == v) = false := by simpa using hv
      simp only [this, if_false]
      simpa using ih htail

theorem processDep_inv (nodes : List GraphNode) (file : CodeFile)
    (sid : String) (d : DependencyInfo) (t : String)
    (past : List (String × String)) (edges : List GraphEdge)
    (hm : findMatchingNode d.path nodes = some t)
    (hinj : KeyInj (past ++ [(sid, t)]))
    (hbase : EdgeInv past edges) :
    EdgeInv (past ++ [(sid, t)]) (processDep nodes file sid edges d) := by
  have hpmem : (sid, t) ∈ past ++ [(sid, t)] := by simp
  have hemem : ∀ e ∈ edges, (e.efrom, e.eto) ∈ past ++ [(sid, t)] :=
    fun e he => List.mem_append_left _ (hbase.mem e he)
  rw [processDep]
  simp only [hm]
  by_cases hts : t ≠ sid
  · rw [if_pos hts]
    have hiff : ∀ e ∈ edges,
        ((edgeKey e.efrom e.eto == edgeKey sid t) = true) ↔
          (e.efrom, e.eto) = (sid, t) :=
      fun e he => key_match_iff hinj (hemem e he) hpmem
    by_cases hany : edges.any
        (fun e => edgeKey e.efrom e.eto == edgeKey sid t) = true
    · rw [if_pos hany]
      have hcong : incEdge (edgeKey sid t) edges =
          setFirst (fun e => (e.efrom, e.eto) == (sid, t)) bumpEdge edges := by
        rw [incEdge]
        apply setFirst_congr
        intro e he
        apply Bool.eq_iff_iff.mpr
        rw [hiff e he]
        simp
      have hcount : edges.countP (fun e => (e.efrom, e.eto) == (sid, t)) ≤ 1 :=
        countP_le_one_of_pairwise hbase.distinct (sid, t)
      rw [hcong, setFirst_eq_map hcount]
      have hFpair : ∀ e : GraphEdge,
          (((if ((e.efrom, e.eto) == (sid, t)) = true then bumpEdge e
            else e)).efrom,
           ((if ((e.efrom, e.eto) == (sid, t)) = true then bumpEdge e
            else e)).eto) = (e.efrom, e.eto) := by
        intro e
        by_cases hc : ((e.efrom, e.eto) == (sid, t)) = true <;> simp [hc, bumpEdge]
      refine ⟨?_, ?_, ?_, ?_, ?_, ?_⟩
      · intro e' he'
        rcases List.mem_map.mp he' with ⟨e, he, rfl⟩
        have h1 := congrArg Prod.fst (hFpair e)
        have h2 := congrArg Prod.snd (hFpair e)
        simp only at h1 h2
        intro hc
        exact hbase.ne e he ((h1.symm.trans hc).trans h2)
      · intro e' he'
        rcases List.mem_map.mp he' with ⟨e, he, rfl⟩
        rw [hFpair e]
        exact hemem e he
      · intro q hq hqne
        rcases List.mem_append.mp hq with hq | hq
        · rcases hbase.complete q hq hqne with ⟨e, he, hpe⟩
          exact ⟨_, List.mem_map_of_mem _ he, (hFpair e).trans hpe⟩
        · rcases List.mem_singleton.mp hq with rfl
          rcases List.any_eq_true.mp hany with ⟨e, he, hke⟩
          have hpe : (e.efrom, e.eto) = (sid, t) := (hiff e he).mp hke
          exact ⟨_, List.mem_map_of_mem _ he, (hFpair e).trans hpe⟩
      · intro e' he'
        rcases List.mem_map.mp he' with ⟨e, he, rfl⟩
        by_cases hc : ((e.efrom, e.eto) == (sid, t)) = true
        · have hpe : (e.efrom, e.eto) = (sid, t) := by simpa using hc
          rw [if_pos hc]
          have : (bumpEdge e).efrom = e.efrom ∧ (bumpEdge e).eto = e.eto :=
            ⟨rfl, rfl⟩
          rw [show (bumpEdge e).count = e.count + 1 from rfl]
          rw [show ((bumpEdge e).efrom, (bumpEdge e).eto) = (e.efrom, e.eto)
            from rfl]
          rw [hbase.cnt e he, List.count_append, hpe]
          simp
        · rw [if_neg hc]
          have hne : (e.efrom, e.eto) ≠ (sid, t) := by simpa using hc
          rw [hbase.cnt e he, List.count_append]
          have : List.count (e.efrom, e.eto) [(sid, t)] = 0 :=
            List.count_eq_zero.mpr (by simpa using hne)
          omega
      · intro e' he'
        rcases List.mem_map.mp he' with ⟨e, he, rfl⟩
        by_cases hc : ((e.efrom, e.eto) == (sid, t)) = true
        · rw [if_pos hc]
          rfl
        · rw [if_neg hc]
          exact hbase.val e he
      · rw [List.pairwise_map]
        apply hbase.distinct.imp
        intro a b hab
        rw [hFpair a, hFpair b]
        exact hab
    · rw [if_neg hany]
      have hnone : ∀ e ∈ edges, (e.efrom, e.eto) ≠ (sid, t) := by
        intro e he hc
        apply hany
        exact List.any_eq_true.mpr ⟨e, he, (hiff e he).mpr hc⟩
      have hsidt : sid ≠ t := fun hc => hts hc.symm
      have hpast0 : past.count (sid, t) = 0 := by
        rw [List.count_eq_zero]
        intro hc
        rcases hbase.complete (sid, t) hc hsidt with ⟨e, he, hpe⟩
        exact hnone e he hpe
      have hnew : (newEdge file sid t d).efrom = sid ∧
          (newEdge file sid t d).eto = t ∧
          (newEdge file sid t d).count = 1 ∧
          (newEdge file sid t d).value = 1 := ⟨rfl, rfl, rfl, rfl⟩
      refine ⟨?_, ?_, ?_, ?_, ?_, ?_⟩
      · intro e he
        rcases List.mem_append.mp he with he | he
        · exact hbase.ne e he
        · rcases List.mem_singleton.mp he with rfl
          exact hsidt
      · intro e he
        rcases List.mem_append.mp he with he | he
        · exact hemem e he
        · rcases List.mem_singleton.mp he with rfl
          exact hpmem
      · intro q hq hqne
        rcases List.mem_append.mp hq with hq | hq
        · rcases hbase.complete q hq hqne with ⟨e, he, hpe⟩
          exact ⟨e, List.mem_append_left _ he, hpe⟩
        · rcases List.mem_singleton.mp hq with rfl
          exact ⟨newEdge file sid t d,
            List.mem_append_right _ (List.mem_singleton.mpr rfl), rfl⟩
      · intro e he
        rcases List.mem_append.mp he with he | he
        · rw [hbase.cnt e he, List.count_append]
          have : List.count (e.efrom, e.eto) [(sid, t)] = 0 :=
            List.count_eq_zero.mpr (by simpa using hnone e he)
          omega
        · rcases List.mem_singleton.mp he with rfl
          rw [hnew.2.2.1, hnew.1, hnew.2.1, List.count_append, hpast0]
          simp
      · intro e he
        rcases List.mem_append.mp he with he | he
        · exact hbase.val e he
        · rcases List.mem_singleton.mp he with rfl
          rfl
      · rw [List.pairwise_append]
        refine ⟨hbase.distinct, List.pairwise_singleton _ _, ?_⟩
        intro a ha b hb
        rcases List.mem_singleton.mp hb with rfl
        rw [hnew.1, hnew.2.1]
        exact hnone a ha
  · rw [if_neg hts]
    push_neg at hts
    subst hts
    refine ⟨hbase.ne, hemem, ?_, ?_, hbase.val, hbase.distinct⟩
    · intro q hq hqne
      rcases List.mem_append.mp hq with hq | hq
      · rcases hbase.complete q hq hqne with ⟨e, he, hpe⟩
        exact ⟨e, he, hpe⟩
      · rcases List.mem_singleton.mp hq with rfl
        exact absurd rfl hqne
    · intro e he
      rw [hbase.cnt e he, List.count_append]
      have : List.count (e.efrom, e.eto) [(t, t)] = 0 := by
        rw [List.count_eq_zero]
        intro hc
        rcases List.mem_singleton.mp hc with hc
        exact hbase.ne e he (by
          have h1 := congrArg Prod.fst hc
          have h2 := congrArg Prod.snd hc
          simp only at h1 h2
          rw [h1, h2])
      omega

theorem resolvedPairs_cons_none {nodes : List GraphNode}
    {ev : CodeFile × DependencyInfo} {rest : List (CodeFile × DependencyInfo)}
    (hm : findMatchingNode ev.2.path nodes = none) :
    resolvedPairs nodes (ev :: rest) = resolvedPairs nodes rest := by
  simp [resolvedPairs, List.filterMap_cons, hm]

theorem resolvedPairs_cons_some {nodes : List GraphNode}
    {ev : CodeFile × DependencyInfo} {rest : List (CodeFile × DependencyInfo)}
    {t : String} (hm : findMatchingNode ev.2.path nodes = some t) :
    resolvedPairs nodes (ev :: rest) =
      (getNodeId ev.1.relativePath, t) :: resolvedPairs nodes rest := by
  simp [resolvedPairs, List.filterMap_cons, hm]

theorem buildEdges_inv (nodes : List GraphNode) :
    ∀ (evs : List (CodeFile × DependencyInfo))
      (past : List (String × String)) (edges : List GraphEdge),
      KeyInj (past ++ resolvedPairs nodes evs) →
      EdgeInv past edges →
      EdgeInv (past ++ resolvedPairs nodes evs)
        (evs.foldl (fun es p =>
          processDep nodes p.1 (getNodeId p.1.relativePath) es p.2) edges) := by
  intro evs
  induction evs with
  | nil =>
    intro past edges _ hbase
    simpa [resolvedPairs] using hbase
  | cons ev rest ih =>
    intro past edges hinj hbase
    rw [List.foldl_cons]
    cases hm : findMatchingNode ev.2.path nodes with
    | none =>
      have hstep : processDep nodes ev.1 (getNodeId ev.1.relativePath)
          edges ev.2 = edges := by
        rw [processDep]
        simp only [hm]
      rw [hstep, resolvedPairs_cons_none hm]
      rw [resolvedPairs_cons_none hm] at hinj
      exact ih past edges hinj hbase
    | some t =>
      rw [resolvedPairs_cons_some hm] at hinj ⊢
      have hassoc : past ++ ((getNodeId ev.1.relativePath, t) ::
          resolvedPairs nodes rest) =
          (past ++ [(getNodeId ev.1.relativePath, t)]) ++
            resolvedPairs nodes rest := by simp
      rw [hassoc] at hinj ⊢
      apply ih _ _ hinj
      apply processDep_inv nodes ev.1 _ ev.2 t past edges hm ?_ hbase
      apply keyInj_subset hinj
      intro x hx
      exact List.mem_append_left _ hx

theorem edgeInv_buildEdges (extract : CodeFile → List DependencyInfo)
    (files : List CodeFile)
    (hinj : KeyInj (resolvedPairs (buildNodes files)
      (depEvents extract files))) :
    EdgeInv (resolvedPairs (buildNodes files) (depEvents extract files))
      (buildEdges extract (buildNodes files) files) := by
  have hbase : EdgeInv [] [] :=
    ⟨fun e he => absurd he (List.not_mem_nil e),
     fun e he => absurd he (List.not_mem_nil e),
     fun q hq _ => absurd hq (List.not_mem_nil q),
     fun e he => absurd he (List.not_mem_nil e),
     fun e he => absurd he (List.not_mem_nil e),
     List.Pairwise.nil⟩
  have h := buildEdges_inv (buildNodes files) (depEvents extract files) [] []
    (by simpa using hinj) hbase
  rw [buildEdges_eq_events]
  simpa using h

/-- C1 (amended): provided the `edgeMap` string key `from->to` is injective
on the resolved id pairs (which holds whenever no node id contains the
substring `->`), then for distinct nodes `A` and `B` the built graph has
exactly one `A → B` edge precisely when some raw reference from `A` resolved
to `B`, that edge's occurrence count equals the number of such raw
references, its display value is `min(count, 5)`, and no edge has identical
source and target. -/
theorem buildGraph_edge_aggregation (extract : CodeFile → List DependencyInfo)
    (files : List CodeFile)
    (hinj : KeyInj (resolvedPairs (buildNodes files) (depEvents extract files)))
    (A B : String) (hAB : A ≠ B) :
    (∀ e ∈ (buildGraphCore extract files).edges, e.efrom ≠ e.eto) ∧
    ((buildGraphCore extract files).edges.countP
        (fun e => e.efrom == A && e.eto == B) =
      if (A, B) ∈ resolvedPairs (buildNodes files) (depEvents extract files)
        then 1 else 0) ∧
    (∀ e ∈ (buildGraphCore extract files).edges, e.efrom = A → e.eto = B →
      e.count = (resolvedPairs (buildNodes files)
        (depEvents extract files)).count (A, B) ∧
      e.value = min ((resolvedPairs (buildNodes files)
        (depEvents extract files)).count (A, B)) 5) := by
  have hinv := edgeInv_buildEdges extract files hinj
  have hdata := buildGraphCore_edges_data extract files
  have htransfer : ∀ e ∈ (buildGraphCore extract files).edges,
      ∃ e₀ ∈ buildEdges extract (buildNodes files) files,
        e₀.efrom = e.efrom ∧ e₀.eto = e.eto ∧ e₀.count = e.count ∧
        e₀.value = e.value := by
    intro e he
    have hmem : edgeData e ∈
        (buildEdges extract (buildNodes files) files).map edgeData := by
      rw [← hdata]
      exact List.mem_map_of_mem _ he
    rcases List.mem_map.mp hmem with ⟨e₀, he₀, hde⟩
    exact ⟨e₀, he₀, congrArg (fun q => q.1) hde, congrArg (fun q => q.2.1) hde,
      congrArg (fun q => q.2.2.1) hde, congrArg (fun q => q.2.2.2.1) hde⟩
  refine ⟨?_, ?_, ?_⟩
  · intro e he
    rcases htransfer e he with ⟨e₀, he₀, h1, h2, _, _⟩
    rw [← h1, ← h2]
    exact hinv.ne e₀ he₀
  · have hcnt : (buildGraphCore extract files).edges.countP
        (fun e => e.efrom == A && e.eto == B) =
        (buildEdges extract (buildNodes files) files).countP
          (fun e => e.efrom == A && e.eto == B) := by
      have h1 : ∀ l : List GraphEdge,
          l.countP (fun e => e.efrom == A && e.eto == B) =
          (l.map edgeData).countP (fun q => q.1 == A && q.2.1 == B) := by
        intro l
        rw [List.countP_map]
        rfl
      rw [h1, h1, hdata]
    rw [hcnt]
    by_cases hm : (A, B) ∈ resolvedPairs (buildNodes files)
        (depEvents extract files)
    · rw [if_pos hm]
      have hle : (buildEdges extract (buildNodes files) files).countP
          (fun e => (e.efrom, e.eto) == (A, B)) ≤ 1 :=
        countP_le_one_of_pairwise hinv.distinct (A, B)
      rcases hinv.complete (A, B) hm hAB with ⟨e, he, hpe⟩
      have hpos : 0 < (buildEdges extract (buildNodes files) files).countP
          (fun e => (e.efrom, e.eto) == (A, B)) :=
        List.countP_pos_iff.mpr ⟨e, he, by simp [hpe]⟩
      have hsame : (buildEdges extract (buildNodes files) files).countP
          (fun e => e.efrom == A && e.eto == B) =
          (buildEdges extract (buildNodes files) files).countP
            (fun e => (e.efrom, e.eto) == (A, B)) := rfl
      rw [hsame]
      omega
    · rw [if_neg hm, List.countP_eq_zero]
      intro e he hc
      apply hm
      have hpe : (e.efrom, e.eto) = (A, B) := by
        rcases Bool.and_eq_true .. |>.mp hc with ⟨hc1, hc2⟩
        have := beq_iff_eq.mp hc1
        have := beq_iff_eq.mp hc2
        simp_all
      exact hpe ▸ hinv.mem e he
  · intro e he hA hB
    rcases htransfer e he with ⟨e₀, he₀, h1, h2, h3, h4⟩
    have hpe : (e₀.efrom, e₀.eto) = (A, B) := by rw [h1, h2, hA, hB]
    constructor
    · rw [← h3, hinv.cnt e₀ he₀, hpe]
    · rw [← h4, hinv.val e₀ he₀, hinv.cnt e₀ he₀, hpe]

/-- C1 witness for the amended statement, on the two-file mutual-import
graph: the `a.ts → b.ts` edge aggregates exactly the one raw reference that
resolved from `a.ts` to `b.ts`. -/
theorem buildGraph_edge_aggregation_witness :
    edgeAB.count = (resolvedPairs (buildNodes filesAB)
      (depEvents extractAB filesAB)).count ("a.ts", "b.ts") ∧
    edgeAB.value = min ((resolvedPairs (buildNodes filesAB)
      (depEvents extractAB filesAB)).count ("a.ts", "b.ts")) 5 :=
  (buildGraph_edge_aggregation extractAB filesAB
    (by unfold KeyInj; decide) "a.ts" "b.ts"
    (by decide)).2.2 edgeAB (by decide) rfl rfl

/-! ## Count updates -/

theorem countP_id_le_one {ns : List GraphNode}
    (h : (ns.map (·.id)).Nodup) (v : String) :
    ns.countP (fun n => n.id == v) ≤ 1 :=
  countP_le_one_of_pairwise (List.pairwise_map.mp h) v

theorem updateCounts_eq_map :
    ∀ (es : List GraphEdge) (ns : List GraphNode),
      (ns.map (·.id)).Nodup →
      updateCounts ns es = ns.map (fun n =>
        { n with
          dependencyCount := n.dependencyCount +
            es.countP (fun e => e.efrom == n.id),
          dependentCount := n.dependentCount +
            es.countP (fun e => e.eto == n.id) }) := by
  intro es
  induction es with
  | nil =>
    intro ns _
    show ns = _
    conv_lhs => rw [← List.map_id ns]
    apply List.map_congr_left
    intro n _
    simp
  | cons e es ih =>
    intro ns hnd
    have hstep : updateCounts ns (e :: es) =
        updateCounts (setFirst (fun n => n.id == e.eto)
          (fun n => { n with dependentCount := n.dependentCount + 1 })
          (setFirst (fun n => n.id == e.efrom)
            (fun n => { n with dependencyCount := n.dependencyCount + 1 })
            ns)) es := rfl
    rw [hstep, setFirst_eq_map (countP_id_le_one hnd _)]
    have hmapid : (ns.map (fun n =>
        if (n.id == e.efrom) = true then
          { n with dependencyCount := n.dependencyCount + 1 }
        else n)).map (·.id) = ns.map (·.id) := by
      rw [List.map_map]
      apply List.map_congr_left
      intro n _
      simp only [Function.comp]
      split <;> rfl
    have hnd1 : ((ns.map (fun n =>
        if (n.id == e.efrom) = true then
          { n with dependencyCount := n.dependencyCount + 1 }
        else n)).map (·.id)).Nodup := by
      rw [hmapid]; exact hnd
    rw [setFirst_eq_map (countP_id_le_one hnd1 _), List.map_map]
    have hnd2 : ((ns.map ((fun n =>
        if (n.id == e.eto) = true then
          { n with dependentCount := n.dependentCount + 1 }
        else n) ∘ (fun n =>
          if (n.id == e.efrom) = true then
            { n with dependencyCount := n.dependencyCount + 1 }
          else n))).map (·.id)).Nodup := by
      rw [List.map_map]
      have hsame : ns.map ((·.id) ∘ ((fun n =>
          if (n.id == e.eto) = true then
            { n with dependentCount := n.dependentCount + 1 }
          else n) ∘ (fun n =>
            if (n.id == e.efrom) = true then
              { n with dependencyCount := n.dependencyCount + 1 }
            else n))) = ns.map (·.id) := by
        apply List.map_congr_left
        intro n _
        simp only [Function.comp]
        split <;> split <;> rfl
      rw [hsame]
      exact hnd
    rw [ih _ hnd2, List.map_map]
    apply List.map_congr_left
    intro n _
    simp only [Function.comp]
    simp only [List.countP_cons]
    by_cases h1 : n.id = e.efrom
    · by_cases h2 : n.id = e.eto
      · rw [← h1, ← h2]
        simp [GraphNode.mk.injEq]
        omega
      · rw [← h1]
        have h2a : (n.id == e.eto) = false := by simpa using h2
        have h2b : (e.eto == n.id) = false := by simpa using Ne.symm h2
        simp [GraphNode.mk.injEq, h2a, h2b]
        omega
    · have h1a : (n.id == e.efrom) = false := by simpa using h1
      have h1b : (e.efrom == n.id) = false := by simpa using Ne.symm h1
      by_cases h2 : n.id = e.eto
      · rw [← h2]
        simp [GraphNode.mk.injEq, h1a, h1b]
        omega
      · have h2a : (n.id == e.eto) = false := by simpa using h2
        have h2b : (e.eto == n.id) = false := by simpa using Ne.symm h2
        simp [GraphNode.mk.injEq, h1a, h1b, h2a, h2b]

theorem sum_map_add (f g : α → Nat) :
    ∀ l : List α,
      (l.map (fun x => f x + g x)).sum = (l.map f).sum + (l.map g).sum := by
  intro l
  induction l with
  | nil => rfl
  | cons a as ih =>
    simp only [List.map_cons, List.sum_cons, ih]
    omega

theorem sum_indicator_eq_one (v : String) :
    ∀ ids : List String, v ∈ ids → ids.Nodup →
      (ids.map (fun i => if (v == i) = true then 1 else 0)).sum = 1 := by
  intro ids
  induction ids with
  | nil => intro hv _; cases hv
  | cons i rest ih =>
    intro hv hnd
    rcases List.mem_cons.mp hv with h | hv'
    · subst h
      have hni : v ∉ rest := (List.nodup_cons.mp hnd).1
      have hz : (rest.map (fun j => if (v == j) = true then 1 else 0)).sum
          = 0 := by
        apply List.sum_eq_zero
        intro x hx
        rcases List.mem_map.mp hx with ⟨j, hj, rfl⟩
        have hvj : ¬ (v == j) = true := by
          simp only [beq_iff_eq]
          intro hc
          exact hni (hc ▸ hj)
        simp [hvj]
      rw [List.map_cons, List.sum_cons, hz]
      simp
    · have hvi : v ≠ i := by
        intro hc
        exact (List.nodup_cons.mp hnd).1 (hc ▸ hv')
      have hb : (v == i) = false := by simpa using hvi
      simp only [List.map_cons, List.sum_cons, hb]
      simpa using ih hv' (List.nodup_cons.mp hnd).2

theorem sum_countP_eq_length (proj : GraphEdge → String) :
    ∀ (es : List GraphEdge) (ids : List String),
      (∀ e ∈ es, proj e ∈ ids) → ids.Nodup →
      (ids.map (fun i => es.countP (fun e => proj e == i))).sum = es.length := by
  intro es
  induction es with
  | nil =>
    intro ids _ _
    apply List.sum_eq_zero
    intro x hx
    rcases List.mem_map.mp hx with ⟨i, _, rfl⟩
    simp
  | cons e es ih =>
    intro ids hmem hnd
    have h1 : ids.map (fun i => (e :: es).countP (fun e' => proj e' == i)) =
        ids.map (fun i => es.countP (fun e' => proj e' == i) +
          if (proj e == i) = true then 1 else 0) := by
      apply List.map_congr_left
      intro i _
      rw [List.countP_cons]
    rw [h1, sum_map_add,
      ih ids (fun e' he' => hmem e' (List.mem_cons_of_mem _ he')) hnd,
      sum_indicator_eq_one (proj e) ids (hmem e (List.mem_cons_self _ _)) hnd]
    simp

theorem buildNodes_map_id (files : List CodeFile) :
    (buildNodes files).map (·.id) =
      files.map (fun f => getNodeId f.relativePath) := by
  rw [buildNodes, List.map_map]
  rfl

theorem buildGraphCore_edges_countP (extract : CodeFile → List DependencyInfo)
    (files : List CodeFile)
    (p : String × String × Nat × Nat × DependencyType → Bool) :
    (buildGraphCore extract files).edges.countP (fun e => p (edgeData e)) =
      (buildEdges extract (buildNodes files) files).countP
        (fun e => p (edgeData e)) := by
  have h1 : ∀ l : List GraphEdge,
      l.countP (fun e => p (edgeData e)) = (l.map edgeData).countP p := by
    intro l
    rw [List.countP_map]
    rfl
  rw [h1, h1, buildGraphCore_edges_data]

theorem buildGraphCore_edges_length (extract : CodeFile → List DependencyInfo)
    (files : List CodeFile) :
    (buildGraphCore extract files).edges.length =
      (buildEdges extract (buildNodes files) files).length := by
  have h := congrArg List.length (buildGraphCore_edges_data extract files)
  simpa using h

theorem buildGraphCore_nodes_counts (extract : CodeFile → List DependencyInfo)
    (files : List CodeFile)
    (hnd : ((buildNodes files).map (·.id)).Nodup) :
    (buildGraphCore extract files).nodes.map
        (fun n => (n.id, n.dependencyCount, n.dependentCount)) =
      (buildNodes files).map (fun n => (n.id,
        (buildEdges extract (buildNodes files) files).countP
          (fun e => e.efrom == n.id),
        (buildEdges extract (buildNodes files) files).countP
          (fun e => e.eto == n.id))) := by
  show (markCircularNodes _ (updateCounts (buildNodes files) _)).map _ = _
  rw [markCircularNodes_eq_markIds, markIds_map_counts,
    updateCounts_eq_map _ _ hnd, List.map_map]
  apply List.map_congr_left
  intro n hn
  rcases List.mem_map.mp hn with ⟨f, _, rfl⟩
  simp only [Function.comp]
  simp [mkNode]

/-- C5: in a built graph with distinct node ids, each node's
`dependencyCount` is the number of edges having it as source and its
`dependentCount` the number of edges having it as target; consequently both
counters sum to the total edge count. -/
theorem node_counts_match_edges (extract : CodeFile → List DependencyInfo)
    (files : List CodeFile)
    (h : (files.map (fun f => getNodeId f.relativePath)).Nodup) :
    (∀ n ∈ (buildGraphCore extract files).nodes,
      n.dependencyCount = (buildGraphCore extract files).edges.countP
        (fun e => e.efrom == n.id) ∧
      n.dependentCount = (buildGraphCore extract files).edges.countP
        (fun e => e.eto == n.id)) ∧
    ((buildGraphCore extract files).nodes.map (·.dependencyCount)).sum =
      (buildGraphCore extract files).edges.length ∧
    ((buildGraphCore extract files).nodes.map (·.dependentCount)).sum =
      (buildGraphCore extract files).edges.length := by
  have hnd : ((buildNodes files).map (·.id)).Nodup := by
    rw [buildNodes_map_id]; exact h
  have hchar := buildGraphCore_nodes_counts extract files hnd
  have htransfer : ∀ v : String,
      ((buildGraphCore extract files).edges.countP (fun e => e.efrom == v) =
        (buildEdges extract (buildNodes files) files).countP
          (fun e => e.efrom == v)) ∧
      ((buildGraphCore extract files).edges.countP (fun e => e.eto == v) =
        (buildEdges extract (buildNodes files) files).countP
          (fun e => e.eto == v)) := by
    intro v
    exact ⟨buildGraphCore_edges_countP extract files (fun q => q.1 == v),
      buildGraphCore_edges_countP extract files (fun q => q.2.1 == v)⟩
  refine ⟨?_, ?_, ?_⟩
  · intro n hn
    have hmem : (n.id, n.dependencyCount, n.dependentCount) ∈
        (buildGraphCore extract files).nodes.map
          (fun n => (n.id, n.dependencyCount, n.dependentCount)) :=
      List.mem_map_of_mem _ hn
    rw [hchar] at hmem
    rcases List.mem_map.mp hmem with ⟨n₀, _, hq⟩
    have h1 : n₀.id = n.id := congrArg (fun q => q.1) hq
    have h2 : (buildEdges extract (buildNodes files) files).countP
        (fun e => e.efrom == n₀.id) = n.dependencyCount :=
      congrArg (fun q => q.2.1) hq
    have h3 : (buildEdges extract (buildNodes files) files).countP
        (fun e => e.eto == n₀.id) = n.dependentCount :=
      congrArg (fun q => q.2.2) hq
    rw [h1] at h2 h3
    exact ⟨by rw [(htransfer n.id).1, ← h2],
      by rw [(htransfer n.id).2, ← h3]⟩
  · have hm : (buildGraphCore extract files).nodes.map (·.dependencyCount) =
        ((buildGraphCore extract files).nodes.map
          (fun n => (n.id, n.dependencyCount, n.dependentCount))).map
            (fun q => q.2.1) := by
      rw [List.map_map]
      rfl
    rw [hm, hchar, List.map_map, buildGraphCore_edges_length]
    have hm2 : (buildNodes files).map ((fun q => q.2.1) ∘ (fun n => (n.id,
        (buildEdges extract (buildNodes files) files).countP
          (fun e => e.efrom == n.id),
        (buildEdges extract (buildNodes files) files).countP
          (fun e => e.eto == n.id)))) =
        ((buildNodes files).map (·.id)).map (fun i =>
          (buildEdges extract (buildNodes files) files).countP
            (fun e => e.efrom == i)) := by
      rw [List.map_map]
      rfl
    rw [hm2]
    apply sum_countP_eq_length (fun e => e.efrom)
    · intro e he
      rcases buildEdges_endpoints extract (buildNodes files) files e he with
        ⟨_, ⟨f, hf, hfe⟩, _⟩
      rw [buildNodes_map_id]
      exact List.mem_map.mpr ⟨f, hf, hfe.symm⟩
    · exact hnd
  · have hm : (buildGraphCore extract files).nodes.map (·.dependentCount) =
        ((buildGraphCore extract files).nodes.map
          (fun n => (n.id, n.dependencyCount, n.dependentCount))).map
            (fun q => q.2.2) := by
      rw [List.map_map]
      rfl
    rw [hm, hchar, List.map_map, buildGraphCore_edges_length]
    have hm2 : (buildNodes files).map ((fun q => q.2.2) ∘ (fun n => (n.id,
        (buildEdges extract (buildNodes files) files).countP
          (fun e => e.efrom == n.id),
        (buildEdges extract (buildNodes files) files).countP
          (fun e => e.eto == n.id)))) =
        ((buildNodes files).map (·.id)).map (fun i =>
          (buildEdges extract (buildNodes files) files).countP
            (fun e => e.eto == i)) := by
      rw [List.map_map]
      rfl
    rw [hm2]
    apply sum_countP_eq_length (fun e => e.eto)
    · intro e he
      rcases buildEdges_endpoints extract (buildNodes files) files e he with
        ⟨_, _, ⟨n, hn, hne⟩⟩
      exact List.mem_map.mpr ⟨n, hn, hne⟩
    · exact hnd

/-- C5 witness: on the two-file mutual-import graph, the `a.ts` node counts
one outgoing and one incoming edge, and both counters sum to the edge
count. -/
theorem node_counts_match_edges_witness :
    (nodeA.dependencyCount = (buildGraphCore extractAB filesAB).edges.countP
        (fun e => e.efrom == nodeA.id) ∧
      nodeA.dependentCount = (buildGraphCore extractAB filesAB).edges.countP
        (fun e => e.eto == nodeA.id)) ∧
    ((buildGraphCore extractAB filesAB).nodes.map (·.dependencyCount)).sum =
      (buildGraphCore extractAB filesAB).edges.length :=
  ⟨(node_counts_match_edges extractAB filesAB (by decide)).1 nodeA (by decide),
   (node_counts_match_edges extractAB filesAB (by decide)).2.1⟩

/-! ## Circular marking characterization -/

theorem markIds_eq_map :
    ∀ (ids : List String) (ns : List GraphNode),
      (ns.map (·.id)).Nodup →
      markIds ids ns = ns.map (fun n =>
        if n.id ∈ ids then { n with isCircular := true } else n) := by
  intro ids
  induction ids with
  | nil =>
    intro ns _
    show ns = _
    conv_lhs => rw [← List.map_id ns]
    apply List.map_congr_left
    intro n _
    simp
  | cons i rest ih =>
    intro ns hnd
    have hstep : markIds (i :: rest) ns =
        markIds rest (setFirst (fun n => n.id == i)
          (fun n => { n with isCircular := true }) ns) := rfl
    rw [hstep, setFirst_eq_map (countP_id_le_one hnd _)]
    have hndm : ((ns.map (fun n =>
        if (n.id == i) = true then { n with isCircular := true } else n)).map
          (·.id)).Nodup := by
      rw [List.map_map]
      have hsame : ns.map ((·.id) ∘ fun n =>
          if (n.id == i) = true then { n with isCircular := true } else n) =
          ns.map (·.id) := by
        apply List.map_congr_left
        intro n _
        simp only [Function.comp]
        split <;> rfl
      rw [hsame]
      exact hnd
    rw [ih _ hndm, List.map_map]
    apply List.map_congr_left
    intro n _
    simp only [Function.comp]
    by_cases h1 : n.id = i
    · have hb : (n.id == i) = true := beq_iff_eq.mpr h1
      have hm : n.id ∈ i :: rest := by simp [h1]
      rw [if_pos hb, if_pos hm]
      split <;> rfl
    · have hb : (n.id == i) = false := by simpa using h1
      rw [hb]
      have hiff : (n.id ∈ i :: rest) ↔ (n.id ∈ rest) := by
        simp [List.mem_cons, h1]
      simp only [Bool.false_eq_true, if_false]
      by_cases h2 : n.id ∈ rest
      · rw [if_pos h2, if_pos (hiff.mpr h2)]
      · rw [if_neg h2, if_neg (fun hc => h2 (hiff.mp hc))]

theorem updateCounts_map_circ (ns : List GraphNode) (es : List GraphEdge) :
    (updateCounts ns es).map (fun n => (n.id, n.isCircular)) =
      ns.map (fun n => (n.id, n.isCircular)) := by
  apply foldl_preserves_map_proj
  intro acc e
  apply setFirst_setFirst_map_proj
  · intro x
    rfl
  · intro x
    rfl

/-- C3 (amended): in a built graph with distinct node ids, a node carries
`isCircular = true` exactly when its id appears in some recorded cycle; a
node lying on a directed cycle that the DFS never records is not flagged. -/
theorem isCircular_iff_mem_recorded_cycle
    (extract : CodeFile → List DependencyInfo) (files : List CodeFile)
    (h : (files.map (fun f => getNodeId f.relativePath)).Nodup) :
    ∀ n ∈ (buildGraphCore extract files).nodes,
      (n.isCircular = true ↔
        ∃ c ∈ (buildGraphCore extract files).circularDependencies,
          n.id ∈ c) := by
  have hnd0 : ((buildNodes files).map (·.id)).Nodup := by
    rw [buildNodes_map_id]; exact h
  have hnd1 : ((updateCounts (buildNodes files)
      (buildEdges extract (buildNodes files) files)).map (·.id)).Nodup := by
    rw [updateCounts_map_id]; exact hnd0
  intro n hn
  have hshape : (buildGraphCore extract files).nodes =
      markIds (buildGraphCore extract files).circularDependencies.join
        (updateCounts (buildNodes files)
          (buildEdges extract (buildNodes files) files)) := by
    show markCircularNodes _ _ = _
    rw [markCircularNodes_eq_markIds]
    rfl
  rw [hshape, markIds_eq_map _ _ hnd1] at hn
  rcases List.mem_map.mp hn with ⟨n1, hn1, rfl⟩
  have hfalse : n1.isCircular = false := by
    have hpair : (n1.id, n1.isCircular) ∈ (updateCounts (buildNodes files)
        (buildEdges extract (buildNodes files) files)).map
          (fun n => (n.id, n.isCircular)) := List.mem_map_of_mem _ hn1
    rw [updateCounts_map_circ] at hpair
    rcases List.mem_map.mp hpair with ⟨n0, hn0, hq⟩
    rcases List.mem_map.mp hn0 with ⟨f, _, rfl⟩
    have hc := congrArg (fun q => q.2) hq
    simpa [mkNode] using hc.symm
  by_cases hmem : n1.id ∈
      (buildGraphCore extract files).circularDependencies.join
  · rw [if_pos hmem]
    constructor
    · intro _
      rcases List.mem_join.mp hmem with ⟨c, hc, hcm⟩
      exact ⟨c, hc, hcm⟩
    · intro _
      rfl
  · rw [if_neg hmem]
    constructor
    · intro hc
      rw [hfalse] at hc
      cases hc
    · rintro ⟨c, hc, hcm⟩
      exact absurd (List.mem_join.mpr ⟨c, hc, hcm⟩) hmem

/-- C3 witness for the amended statement: the flagged node `a.ts` of the
two-file mutual-import graph appears in the recorded cycle. -/
theorem isCircular_iff_mem_recorded_cycle_witness :
    nodeA ∈ (buildGraphCore extractAB filesAB).nodes ∧
    (nodeA.isCircular = true ↔
      ∃ c ∈ (buildGraphCore extractAB filesAB).circularDependencies,
        nodeA.id ∈ c) :=
  ⟨by decide, isCircular_iff_mem_recorded_cycle extractAB filesAB (by decide)
    nodeA (by decide)⟩

end CodeViz
